import Mathlib

/-!
Shallow embedding of `scripts/spreadsheet_to_projects.py` (Bitergia/projects-mozilla).

The script reads a multi-sheet spreadsheet and writes a `projects.json` file.
We model:
  * Python `dict` as an insertion-ordered association list (`dget` / `dset`),
  * Python `str` operations used by the script (`replace`, `rfind`, `lower`,
    `int(...)`, `sorted(...)` on strings) as executable Lean functions on
    `String` / `List Char` (ASCII case mapping, decimal integer literals:
    exactly the fragments that the inputs of the script exercise),
  * for each `Sheet` subclass, `_get_repo` / `_normalize_repo`, `get_repos`,
    the sheet dispatch of `main`, the aggregation into the projects tree,
    the finalization (sorting, `meta`), `add_adhoc_repositories`, and the
    `json.dump(..., sort_keys=True, indent=4)` rendering.
An exception escaping (the one possible source is `int(...)` on a Discourse
cell) is modelled by `Option`: `none` means the run aborts with no output.
-/

/-- Python dict lookup `d[k]` (as an `Option`): first matching key. -/
def dget {β : Type} (d : List (String × β)) (k : String) : Option β :=
  match d with
  | [] => none
  | (k2, v) :: rest => if k2 = k then some v else dget rest k

/-- Python dict assignment `d[k] = v`: update in place if the key exists,
otherwise append at the end (insertion order, as in Python 3.7+). -/
def dset {β : Type} (d : List (String × β)) (k : String) (v : β) : List (String × β) :=
  match d with
  | [] => [(k, v)]
  | (k2, v2) :: rest => if k2 = k then (k2, v) :: rest else (k2, v2) :: dset rest k v

/-- Keys of a dict, in order. -/
def dkeys {β : Type} (d : List (String × β)) : List String :=
  d.map Prod.fst

/-- Byte-wise (code-point) comparison of character lists, as Python compares
strings: lexicographic on code points. Returns `true` when `a ≤ b`. -/
def chrLe : List Char → List Char → Bool
  | [], _ => true
  | _ :: _, [] => false
  | a :: as, b :: bs => if a = b then chrLe as bs else decide (a < b)

/-- Python string comparison `a <= b` (lexicographic on code points). -/
def strLe (a b : String) : Bool :=
  chrLe a.data b.data

/-- Insert a string into a (sorted) list, keeping `strLe` order. -/
def sortIns (x : String) : List String → List String
  | [] => [x]
  | y :: ys => if strLe x y then x :: y :: ys else y :: sortIns x ys

/-- Python `sorted(...)` on a list of strings: ascending lexicographic
(code-point) order, modelled by insertion sort. -/
def pysorted : List String → List String
  | [] => []
  | x :: xs => sortIns x (pysorted xs)

/-- Check whether `p` is an initial segment of `s` (substring occurrence at
position 0), used to model Python `str.replace` / `str.rfind` scanning. -/
def isPre : List Char → List Char → Bool
  | [], _ => true
  | _ :: _, [] => false
  | p :: ps, c :: cs => if p = c then isPre ps cs else false

/-- Python `s.replace(old, new, 1)` on character lists: replace the first
(leftmost) occurrence of `pat`, scanning left to right. -/
def repFirst (pat rep : List Char) : List Char → List Char
  | [] => if isPre pat [] then rep else []
  | c :: cs =>
    if isPre pat (c :: cs) then rep ++ (c :: cs).drop pat.length
    else c :: repFirst pat rep cs

/-- Python `s.replace(old, new)` on character lists: replace every
non-overlapping occurrence left to right. The `fuel` argument (instantiated
with the length of the scanned list) only makes the recursion structural. -/
def repAllF (pat rep : List Char) : Nat → List Char → List Char
  | _, [] => if isPre pat [] then rep else []
  | 0, s => s
  | fuel + 1, c :: cs =>
    if pat.isEmpty then rep ++ c :: repAllF pat rep fuel cs
    else if isPre pat (c :: cs) then rep ++ repAllF pat rep fuel ((c :: cs).drop pat.length)
    else c :: repAllF pat rep fuel cs

/-- Python `s.replace(old, new)` (all occurrences). -/
def pyReplace (s old new : String) : String :=
  String.mk (repAllF old.data new.data s.data.length s.data)

/-- Python `s.replace(old, new, 1)` (first occurrence only). -/
def pyReplace1 (s old new : String) : String :=
  String.mk (repFirst old.data new.data s.data)

/-- Offset of the last occurrence of `pat` in the scanned list, if any. -/
def rfindD (pat : List Char) : List Char → Option Nat
  | [] => if isPre pat [] then some 0 else none
  | c :: cs =>
    match rfindD pat cs with
    | some j => some (j + 1)
    | none => if isPre pat (c :: cs) then some 0 else none

/-- Python `s.rfind(sub)`: highest index where `sub` occurs, `-1` if absent. -/
def pyRfind (s sub : String) : Int :=
  match rfindD sub.data s.data with
  | some i => (i : Int)
  | none => -1

/-- ASCII lower-casing of one character (the fragment of Python `str.lower`
exercised by the inputs of the script). -/
def lowChar (c : Char) : Char :=
  if 65 ≤ c.toNat ∧ c.toNat ≤ 90 then Char.ofNat (c.toNat + 32) else c

/-- Python `s.lower()` (ASCII fragment). -/
def pyLower (s : String) : String :=
  String.mk (s.data.map lowChar)

/-- Python whitespace characters stripped by `int(...)`. -/
def isPyWs (c : Char) : Bool :=
  c = ' ' || c = '\t' || c = '\n' || c = '\r' || c.toNat = 11 || c.toNat = 12

/-- Decimal digit value of a character, if it is a digit. -/
def digitVal (c : Char) : Option Nat :=
  if 48 ≤ c.toNat ∧ c.toNat ≤ 57 then some (c.toNat - 48) else none

/-- Value of a non-empty all-digit character list, `none` otherwise. -/
def digitsToNatAux : List Char → Nat → Option Nat
  | [], acc => some acc
  | c :: cs, acc =>
    match digitVal c with
    | some d => digitsToNatAux cs (acc * 10 + d)
    | none => none

/-- Value of a non-empty all-digit character list, `none` otherwise. -/
def digitsToNat (l : List Char) : Option Nat :=
  match l with
  | [] => none
  | _ :: _ => digitsToNatAux l 0

/-- Python `int(s)` for a decimal string literal: strip whitespace, optional
sign, then digits; `none` models the `ValueError` raised on anything else. -/
def pyInt (s : String) : Option Int :=
  let t := ((s.data.dropWhile isPyWs).reverse.dropWhile isPyWs).reverse
  match t with
  | '+' :: rest => (digitsToNat rest).map (fun n => (n : Int))
  | '-' :: rest => (digitsToNat rest).map (fun n => -(n : Int))
  | rest => (digitsToNat rest).map (fun n => (n : Int))

/-- Python `str(i)` for an integer. -/
def pyStr (i : Int) : String :=
  toString i

/-- One spreadsheet row: a total assignment of cell values to column indices
(`sheet.cell(row, col).value`; the script only reads columns that exist). -/
structure Row where
  cell : Nat → String

/-- Result of one sheet (`Sheet.get_repos`): Python dict repo → project. -/
abbrev SheetResult := List (String × String)

/-- Project name read from a row by `Sheet.get_repos`: the empty cell is
coerced to `Unknown`. -/
def projOf (r : Row) (projCol : Nat) : String :=
  if r.cell projCol = "" then "Unknown" else r.cell projCol

/-- Loop of `Sheet.get_repos` over data rows: `norm` models
`_normalize_repo` (an `Option` since the `DiscourseSheet` one can raise) and
`getRepo` models `_get_repo`. -/
def getReposAux (norm : String → Option String) (getRepo : Row → String) (projCol : Nat) :
    List Row → SheetResult → Option SheetResult
  | [], acc => some acc
  | r :: rs, acc =>
    match norm (getRepo r) with
    | none => none
    | some repo => getReposAux norm getRepo projCol rs (dset acc repo (projOf r projCol))

/-- Python `Sheet.get_repos`: iterate rows `1..nrows-1` (row 0 is the
header), recording repo → project; later rows overwrite earlier ones. -/
def get_repos (norm : String → Option String) (getRepo : Row → String) (projCol : Nat)
    (rows : List Row) : Option SheetResult :=
  getReposAux norm getRepo projCol (rows.drop 1) []

/-- Total-normalizer variant of the `get_repos` loop (every sheet class
except `DiscourseSheet` has a normalizer that cannot raise). -/
def getReposTAux (norm : String → String) (getRepo : Row → String) (projCol : Nat) :
    List Row → SheetResult → SheetResult
  | [], acc => acc
  | r :: rs, acc =>
    getReposTAux norm getRepo projCol rs (dset acc (norm (getRepo r)) (projOf r projCol))

/-- Total-normalizer variant of `get_repos`. -/
def getReposTotal (norm : String → String) (getRepo : Row → String) (projCol : Nat)
    (rows : List Row) : SheetResult :=
  getReposTAux norm getRepo projCol (rows.drop 1) []

/-- Python `normalized_ghrepo`: `repo.replace("https://", "http://", 1)` then
`.lower()`. -/
def normalized_ghrepo (repo : String) : String :=
  pyLower (pyReplace1 repo "https://" "http://")

/-- Python `normalized_bzrepo`. -/
def normalized_bzrepo (url product component : String) : String :=
  url ++ "/bugs/buglist.cgi?" ++ "product=" ++ pyReplace product " " "+"
    ++ "&component=" ++ pyReplace component " " "+"

/-- `GitHubSheet` (inherits `Sheet` defaults: repo column 0, project
column 1, identity normalizer). -/
def githubGetRepos (rows : List Row) : Option SheetResult :=
  get_repos (fun s => some s) (fun r => r.cell 0) 1 rows

/-- `BugzillaSheet`: `_get_repo` builds `normalized_bzrepo` from columns
0, 1, 2; project column 3; identity normalizer. -/
def bugzillaGetRepos (rows : List Row) : Option SheetResult :=
  get_repos (fun s => some s)
    (fun r => normalized_bzrepo (r.cell 0) (r.cell 1) (r.cell 2)) 3 rows

/-- `EmailSheet._normalize_repo`: when `repo.rfind("news.mozilla.org-")`
is 0, every occurrence of the pattern is replaced (Python `str.replace`
with no count); otherwise the string is unchanged. -/
def EmailSheet_normalize_repo (repo : String) : String :=
  if pyRfind repo "news.mozilla.org-" = 0
  then pyReplace repo "news.mozilla.org-" "news.mozilla.org "
  else repo

/-- `EmailSheet` ("Mailing lists"): repo column 0, project column 1. -/
def emailGetRepos (rows : List Row) : Option SheetResult :=
  get_repos (fun s => some (EmailSheet_normalize_repo s)) (fun r => r.cell 0) 1 rows

/-- `DiscourseSheet._normalize_repo`: `str(int(repo))`; `none` models the
`ValueError` raised by `int` on a non-numeric cell. -/
def DiscourseSheet_normalize_repo (repo : String) : Option String :=
  (pyInt repo).map pyStr

/-- `DiscourseSheet`: repo column 1, project column 2. -/
def discourseGetRepos (rows : List Row) : Option SheetResult :=
  get_repos DiscourseSheet_normalize_repo (fun r => r.cell 1) 2 rows

/-- `StackOverflow.url`. -/
def StackOverflow_url : String := "http://stackoverflow.com/questions/tagged/"

/-- `StackOverflow` sheet: repo column 0, project column 1, URL template. -/
def stackGetRepos (rows : List Row) : Option SheetResult :=
  get_repos (fun s => some (StackOverflow_url ++ s)) (fun r => r.cell 0) 1 rows

/-- `Meetup` sheet (inherits all `Sheet` defaults). -/
def meetupGetRepos (rows : List Row) : Option SheetResult :=
  get_repos (fun s => some s) (fun r => r.cell 0) 1 rows

/-- `IRC._normalize_repo`: supybot repo template. -/
def IRC_normalize_repo (repo : String) : String :=
  "irc://irc.mozilla.org/" ++ repo ++
    " /home/bitergia/irc/percevalbot/logs/ChannelLogger/mozilla/#" ++ repo

/-- `IRC` sheet: repo column 0, project column 1. -/
def ircGetRepos (rows : List Row) : Option SheetResult :=
  get_repos (fun s => some (IRC_normalize_repo s)) (fun r => r.cell 0) 1 rows

/-- The `spreadsheet` dict of `main`: datasource kind → sheet result. -/
abbrev Spreadsheet := List (String × SheetResult)

/-- Derivation of the `git` dict in `main`: `spreadsheet['git'][repo+'.git']
= project` for every github repo. -/
def gitFromGithub (gh : SheetResult) : SheetResult :=
  gh.foldl (fun g pr => dset g (pr.1 ++ ".git") pr.2) []

/-- Sheet-dispatch loop of `main` over `wb.sheets()` building the
`spreadsheet` dict; unrecognized sheet names are ignored; `none` models an
uncaught exception aborting the run. -/
def processSheets : List (String × List Row) → Spreadsheet → Option Spreadsheet
  | [], sp => some sp
  | (name, rows) :: rest, sp =>
    if name = "Github" then
      match githubGetRepos rows with
      | none => none
      | some gh => processSheets rest (dset (dset sp "github" gh) "git" (gitFromGithub gh))
    else if name = "Bugzilla" then
      match bugzillaGetRepos rows with
      | none => none
      | some d => processSheets rest (dset sp "bugzilla" d)
    else if name = "Mailing lists" then
      match emailGetRepos rows with
      | none => none
      | some d => processSheets rest (dset sp "nntp" d)
    else if name = "Discourse" then
      match discourseGetRepos rows with
      | none => none
      | some d => processSheets rest (dset sp "discourse" d)
    else if name = "StackOverflow" then
      match stackGetRepos rows with
      | none => none
      | some d => processSheets rest (dset sp "stackexchange" d)
    else if name = "Meetup" then
      match meetupGetRepos rows with
      | none => none
      | some d => processSheets rest (dset sp "meetup" d)
    else if name = "IRC" then
      match ircGetRepos rows with
      | none => none
      | some d => processSheets rest (dset sp "supybot" d)
    else processSheets rest sp

/-- The in-progress `projects` tree: project → datasource → repo set
(a Python `set`, canonicalized here as an append-if-new list). -/
abbrev RawTree := List (String × List (String × List String))

/-- Python `set.add` under the canonical insertion order. -/
def setAdd (l : List String) (x : String) : List String :=
  if x ∈ l then l else l ++ [x]

/-- Body of the aggregation loop of `main` for one (datasource, repo,
project) triple: create missing project / datasource entries, add repo. -/
def aggAdd (t : RawTree) (ds repo proj : String) : RawTree :=
  let t1 := if (dget t proj).isSome then t else dset t proj []
  let e := (dget t1 proj).getD []
  let e1 := if (dget e ds).isSome then e else dset e ds []
  let lst := (dget e1 ds).getD []
  dset t1 proj (dset e1 ds (setAdd lst repo))

/-- Inner aggregation loop: `for repo, project in
spreadsheet[datasource].items()`. -/
def aggItems (ds : String) : List (String × String) → RawTree → RawTree
  | [], t => t
  | (repo, proj) :: rest, t => aggItems ds rest (aggAdd t ds repo proj)

/-- Outer aggregation loop: `for datasource in spreadsheet`. -/
def aggregate : Spreadsheet → RawTree → RawTree
  | [], t => t
  | (ds, items) :: rest, t => aggregate rest (aggItems ds items t)

/-- A value inside one project object of the output JSON: either the `meta`
string or a repo list. -/
inductive PValue
  | vstr : String → PValue
  | vlist : List String → PValue
deriving DecidableEq

/-- One project object of the output JSON. -/
abbrev ProjectEntry := List (String × PValue)

/-- The output JSON tree: project → project object. -/
abbrev ProjectTree := List (String × ProjectEntry)

/-- Finalization of one project in `main`: replace every datasource set by
its sorted list, then set `meta` to the lowercased project name when the
key is absent. -/
def finalizeEntry (proj : String) (e : List (String × List String)) : ProjectEntry :=
  let sortedE := e.map (fun pr => (pr.1, PValue.vlist (pysorted pr.2)))
  if (dget sortedE "meta").isSome then sortedE
  else dset sortedE "meta" (PValue.vstr (pyLower proj))

/-- Finalization loop of `main` over all projects. -/
def finalize (t : RawTree) : ProjectTree :=
  t.map (fun pr => (pr.1, finalizeEntry pr.1 pr.2))

/-- Python `add_adhoc_repositories`: create the `unknown` project when
absent and unconditionally assign its five fixed adhoc entries. -/
def add_adhoc_repositories (t : ProjectTree) : ProjectTree :=
  let t1 := if (dget t "unknown").isSome then t else dset t "unknown" []
  let e := (dget t1 "unknown").getD []
  let e1 := dset e "bugzillarest" (PValue.vlist ["https://bugzilla.mozilla.org"])
  let e2 := dset e1 "discourse" (PValue.vlist ["https://discourse.mozilla.org/"])
  let e3 := dset e2 "mediawiki" (PValue.vlist ["https://wiki.mozilla.org"])
  let e4 := dset e3 "mozillaclub" (PValue.vlist ["https://spreadsheets.google.com/feeds/cells/1QHl2bjBhMslyFzR5XXPzMLdzzx7oeSKTbgR5PM8qp64/ohaibtm/public/values?alt=json"])
  let e5 := dset e4 "remo" (PValue.vlist ["https://reps.mozilla.org"])
  dset t1 "unknown" e5

/-- The whole transformation of `main`, from workbook (list of named
sheets, each a list of rows) to the projects tree; `none` models an
uncaught exception — no JSON file is written. -/
def runMain (wb : List (String × List Row)) : Option ProjectTree :=
  match processSheets wb [] with
  | none => none
  | some sp => some (add_adhoc_repositories (finalize (aggregate sp [])))

/-- Repo list filed in the final tree under project `p` and datasource
kind `ds` (empty when the project, the kind, or a list value is absent). -/
def repoList (t : ProjectTree) (p ds : String) : List String :=
  match dget t p with
  | none => []
  | some e =>
    match dget e ds with
    | some (PValue.vlist l) => l
    | _ => []

/-- Repo set filed in the in-progress tree under project `p`, kind `ds`. -/
def rawRepoList (t : RawTree) (p ds : String) : List String :=
  match dget t p with
  | none => []
  | some e => (dget e ds).getD []

/-- Lowercase hexadecimal digit character. -/
def hexDigit (n : Nat) : Char :=
  if n < 10 then Char.ofNat (48 + n) else Char.ofNat (87 + n)

/-- JSON `\uXXXX` escape for a 16-bit unit. -/
def uEsc (n : Nat) : List Char :=
  ['\\', 'u', hexDigit (n / 4096 % 16), hexDigit (n / 256 % 16),
   hexDigit (n / 16 % 16), hexDigit (n % 16)]

/-- Escaping of one character as in `json.dump` with `ensure_ascii=True`:
printable ASCII is literal, everything else is escaped. -/
def escChar (c : Char) : List Char :=
  if c = '"' then ['\\', '"']
  else if c = '\\' then ['\\', '\\']
  else if c = '\n' then ['\\', 'n']
  else if c = '\r' then ['\\', 'r']
  else if c = '\t' then ['\\', 't']
  else if c.toNat = 8 then ['\\', 'b']
  else if c.toNat = 12 then ['\\', 'f']
  else if c.toNat < 32 ∨ 126 < c.toNat then
    if c.toNat < 65536 then uEsc c.toNat
    else uEsc (55296 + (c.toNat - 65536) / 1024) ++ uEsc (56320 + (c.toNat - 65536) % 1024)
  else [c]

/-- JSON string literal for `s`. -/
def jsonQuote (s : String) : String :=
  "\"" ++ String.mk (s.data.flatMap escChar) ++ "\""

/-- Indentation produced by `json.dump(..., indent=4)` at nesting `lvl`. -/
def indentStr (lvl : Nat) : String :=
  String.mk (List.replicate (4 * lvl) ' ')

/-- Sorted-key traversal order of `json.dump(..., sort_keys=True)`:
insertion sort of the dict items by key. -/
def sortPairs {β : Type} : List (String × β) → List (String × β)
  | [] => []
  | x :: xs => sortInsPair x (sortPairs xs)
where
  sortInsPair (x : String × β) : List (String × β) → List (String × β)
    | [] => [x]
    | y :: ys => if strLe x.1 y.1 then x :: y :: ys else y :: sortInsPair x ys

/-- Rendering of a JSON array of strings at nesting `lvl`. -/
def renderStrList (lvl : Nat) : List String → String
  | [] => "[]"
  | l => "[\n" ++ String.intercalate ",\n" (l.map (fun s => indentStr (lvl + 1) ++ jsonQuote s))
      ++ "\n" ++ indentStr lvl ++ "]"

/-- Rendering of one value of a project object. -/
def renderPValue (lvl : Nat) : PValue → String
  | PValue.vstr s => jsonQuote s
  | PValue.vlist l => renderStrList lvl l

/-- Rendering of one project object (keys sorted). -/
def renderEntry (lvl : Nat) (e : ProjectEntry) : String :=
  match sortPairs e with
  | [] => "\x7b\x7d"
  | l => "\x7b\n" ++ String.intercalate ",\n"
      (l.map (fun pr => indentStr (lvl + 1) ++ jsonQuote pr.1 ++ ": " ++ renderPValue (lvl + 1) pr.2))
      ++ "\n" ++ indentStr lvl ++ "\x7d"

/-- Byte-exact model of `json.dump(projects, fp, sort_keys=True, indent=4)`
on the final tree. -/
def renderTree (t : ProjectTree) : String :=
  match sortPairs t with
  | [] => "\x7b\x7d"
  | l => "\x7b\n" ++ String.intercalate ",\n"
      (l.map (fun pr => indentStr 1 ++ jsonQuote pr.1 ++ ": " ++ renderEntry 1 pr.2))
      ++ "\n\x7d"

/-- Invariant of the sheet-dispatch loop: the `git` dict, when present, is
exactly the image of the `github` dict under appending `.git` to keys. -/
def GitInv (sp : Spreadsheet) : Prop :=
  ∀ gh, dget sp "github" = some gh →
    dget sp "git" = some (gh.map (fun pr => (pr.1 ++ ".git", pr.2)))

/-- Invariant: no project entry of the in-progress tree has a `meta` key
(datasource kinds are the only inner keys). -/
def MetaFree (t : RawTree) : Prop :=
  ∀ p e, dget t p = some e → dget e "meta" = none

/-- Invariant: every repo set of the in-progress tree has no duplicates. -/
def RawNodup (t : RawTree) : Prop :=
  ∀ p ds, (rawRepoList t p ds).Nodup

/-- Equivalence of two project entries up to reordering of the repo sets
(Python `set` iteration order). -/
def EntryEquiv (e1 e2 : List (String × List String)) : Prop :=
  List.Forall₂ (fun a b => a.1 = b.1 ∧ List.Perm a.2 b.2) e1 e2

/-- Equivalence of two in-progress trees up to reordering of the repo sets
(Python `set` iteration order). -/
def RawTreeEquiv (t1 t2 : RawTree) : Prop :=
  List.Forall₂ (fun a b => a.1 = b.1 ∧ EntryEquiv a.2 b.2) t1 t2

/-- Value stored in the output tree under project `p`, key `k`. -/
def treeVal (t : ProjectTree) (p k : String) : Option PValue :=
  (dget t p).bind (fun e => dget e k)

/-- The five adhoc repository entries of the `unknown` project. -/
def adhocEntry : ProjectEntry :=
  [("bugzillarest", PValue.vlist ["https://bugzilla.mozilla.org"]),
   ("discourse", PValue.vlist ["https://discourse.mozilla.org/"]),
   ("mediawiki", PValue.vlist ["https://wiki.mozilla.org"]),
   ("mozillaclub", PValue.vlist ["https://spreadsheets.google.com/feeds/cells/1QHl2bjBhMslyFzR5XXPzMLdzzx7oeSKTbgR5PM8qp64/ohaibtm/public/values?alt=json"]),
   ("remo", PValue.vlist ["https://reps.mozilla.org"])]

/-- Workbook used to witness the amended C1 claim. -/
def wbC1 : List (String × List Row) :=
  [("Meetup", [⟨fun _ => "h"⟩,
               ⟨fun n => if n = 0 then "X" else if n = 1 then "Mozilla" else ""⟩])]

/-- Output tree of `runMain wbC1`. -/
def tC1 : ProjectTree :=
  [("Mozilla", [("meetup", PValue.vlist ["X"]), ("meta", PValue.vstr "mozilla")]),
   ("unknown", adhocEntry)]

/-- Duplicate-key rows used to witness C9. -/
def rowK1 : Row := ⟨fun n => if n = 0 then "K" else "P1"⟩

/-- Duplicate-key rows used to witness C9. -/
def rowK2 : Row := ⟨fun n => if n = 0 then "K" else "P2"⟩

/-- Header row used by several witnesses. -/
def hdrRow : Row := ⟨fun _ => "h"⟩

/-- Bugzilla row of the worked example in the spec. -/
def rowBZ : Row :=
  ⟨fun n => if n = 0 then "http://bugzilla.example" else if n = 1 then "Core"
    else if n = 2 then "XML Parser" else "Mozilla"⟩

/-- Output tree of the Bugzilla witness workbook. -/
def tBZ : ProjectTree :=
  [("Mozilla",
    [("bugzilla", PValue.vlist
      ["http://bugzilla.example/bugs/buglist.cgi?product=Core&component=XML+Parser"]),
     ("meta", PValue.vstr "mozilla")]),
   ("unknown", adhocEntry)]

/-- Github row used by the C4 witness. -/
def rowGH : Row := ⟨fun n => if n = 0 then "https://github.com/a" else "PP"⟩

/-- Output tree of the Github witness workbook. -/
def tGH : ProjectTree :=
  [("PP",
    [("github", PValue.vlist ["https://github.com/a"]),
     ("git", PValue.vlist ["https://github.com/a.git"]),
     ("meta", PValue.vstr "pp")]),
   ("unknown", adhocEntry)]

/-- Discourse row with a non-numeric category cell. -/
def rowBad : Row := ⟨fun n => if n = 1 then "abc" else "x"⟩

/-- Meetup rows (unsorted, with a duplicate) used by the C7 witness. -/
def row7a : Row := ⟨fun n => if n = 0 then "b" else "PX"⟩

/-- Meetup rows (unsorted, with a duplicate) used by the C7 witness. -/
def row7b : Row := ⟨fun n => if n = 0 then "a" else "PX"⟩

/-- Output tree of the C7 witness workbook. -/
def t7 : ProjectTree :=
  [("PX", [("meetup", PValue.vlist ["a", "b"]), ("meta", PValue.vstr "px")]),
   ("unknown", adhocEntry)]

/-- Modelled from the claim wording, for comparison only: lowercase the
whole string, rewriting only a leading `https://` to `http://`. -/
def ghrepoLeadingOnly (s : String) : String :=
  pyLower (if isPre "https://".data s.data
    then String.mk ("http://".data ++ s.data.drop "https://".data.length)
    else s)

/-- Spreadsheet dict of the C1 witness workbook `wbC1`. -/
def spC1 : Spreadsheet := [("meetup", [("X", "Mozilla")])]

/-- Meetup row whose project cell is literally `unknown`. -/
def rowUnk : Row := ⟨fun n => if n = 0 then "X" else if n = 1 then "unknown" else ""⟩

/-- Workbook that contributes a project literally named `unknown`. -/
def wbU : List (String × List Row) := [("Meetup", [⟨fun _ => "h"⟩, rowUnk])]

/-- Spreadsheet dict of `wbU`. -/
def spU : Spreadsheet := [("meetup", [("X", "unknown")])]

/-- Project object of `unknown` in the output of `runMain wbU`. -/
def eU : ProjectEntry :=
  [("meetup", PValue.vlist ["X"]), ("meta", PValue.vstr "unknown")] ++ adhocEntry

/-- Output tree of `runMain wbU`. -/
def tU : ProjectTree := [("unknown", eU)]

theorem dget_dset_self {β : Type} (d : List (String × β)) (k : String) (v : β) :
    dget (dset d k v) k = some v := by
  induction d with
  | nil => simp [dget, dset]
  | cons p rest ih =>
    obtain ⟨k2, v2⟩ := p
    by_cases h : k2 = k
    · simp [dget, dset, h]
    · simp [dget, dset, h, ih]

@[simp] theorem dkeys_nil {β : Type} : dkeys ([] : List (String × β)) = [] := rfl

@[simp] theorem dkeys_cons {β : Type} (p : String × β) (d : List (String × β)) :
    dkeys (p :: d) = p.1 :: dkeys d := rfl

theorem dget_dset_ne {β : Type} (d : List (String × β)) (k k2 : String) (v : β)
    (h : k2 ≠ k) : dget (dset d k v) k2 = dget d k2 := by
  induction d with
  | nil =>
    have hne : ¬ k = k2 := fun hh => h hh.symm
    simp [dget, dset, hne]
  | cons p rest ih =>
    obtain ⟨k3, v3⟩ := p
    by_cases h3 : k3 = k
    · subst h3
      have hne : ¬ k3 = k2 := fun hh => h hh.symm
      simp [dget, dset, hne]
    · by_cases h4 : k3 = k2
      · subst h4
        simp [dget, dset, h3]
      · simp [dget, dset, h3, h4, ih]

theorem mem_dset {β : Type} {d : List (String × β)} {k : String} {v : β}
    {pr : String × β} (h : pr ∈ dset d k v) : pr ∈ d ∨ pr = (k, v) := by
  induction d with
  | nil => simpa [dset] using h
  | cons p rest ih =>
    obtain ⟨k2, v2⟩ := p
    by_cases h2 : k2 = k
    · subst h2
      rcases (by simpa [dset] using h : pr = (k2, v) ∨ pr ∈ rest) with h3 | h3
      · exact Or.inr h3
      · exact Or.inl (List.mem_cons_of_mem _ h3)
    · rcases (by simpa [dset, h2] using h : pr = (k2, v2) ∨ pr ∈ dset rest k v) with h3 | h3
      · exact Or.inl (by simp [h3])
      · rcases ih h3 with h4 | h4
        · exact Or.inl (List.mem_cons_of_mem _ h4)
        · exact Or.inr h4

theorem dget_mem {β : Type} {d : List (String × β)} {k : String} {v : β}
    (h : dget d k = some v) : (k, v) ∈ d := by
  induction d with
  | nil => simp [dget] at h
  | cons p rest ih =>
    obtain ⟨k2, v2⟩ := p
    by_cases h2 : k2 = k
    · subst h2
      simp [dget] at h
      simp [h]
    · simp [dget, h2] at h
      exact List.mem_cons_of_mem _ (ih h)

theorem dset_append {β : Type} {d : List (String × β)} {k : String} (v : β)
    (h : k ∉ dkeys d) : dset d k v = d ++ [(k, v)] := by
  induction d with
  | nil => simp [dset]
  | cons p rest ih =>
    obtain ⟨k2, v2⟩ := p
    simp only [dkeys_cons, List.mem_cons, not_or] at h
    have hk : ¬ k2 = k := fun hh => h.1 hh.symm
    simp [dset, hk, ih h.2]

theorem dkeys_dset_subset {β : Type} (d : List (String × β)) (k : String) (v : β) :
    ∀ k2 ∈ dkeys (dset d k v), k2 ∈ dkeys d ∨ k2 = k := by
  intro k2 h
  simp only [dkeys, List.mem_map] at h
  obtain ⟨pr, hpr, hfst⟩ := h
  rcases mem_dset hpr with h2 | h2
  · refine Or.inl ?_
    simp only [dkeys, List.mem_map]
    exact ⟨pr, h2, hfst⟩
  · subst h2
    exact Or.inr hfst.symm

theorem chrLe_refl (a : List Char) : chrLe a a = true := by
  induction a with
  | nil => rfl
  | cons c cs ih => simp [chrLe, ih]

theorem chrLe_trans (a b c : List Char) (h1 : chrLe a b = true) (h2 : chrLe b c = true) :
    chrLe a c = true := by
  induction a generalizing b c with
  | nil => rfl
  | cons x xs ih =>
    cases b with
    | nil => simp [chrLe] at h1
    | cons y ys =>
      cases c with
      | nil => simp [chrLe] at h2
      | cons z zs =>
        by_cases hxy : x = y
        · subst hxy
          simp only [chrLe, if_pos rfl] at h1
          by_cases hyz : x = z
          · subst hyz
            simp only [chrLe, if_pos rfl] at h2 ⊢
            exact ih ys zs h1 h2
          · simp only [chrLe, if_neg hyz] at h2 ⊢
            exact h2
        · simp only [chrLe, if_neg hxy, decide_eq_true_eq] at h1
          by_cases hyz : y = z
          · have hxz : ¬ x = z := by
              rw [← hyz]
              exact hxy
            simp only [chrLe, if_neg hxz, decide_eq_true_eq]
            rw [← hyz]
            exact h1
          · simp only [chrLe, if_neg hyz, decide_eq_true_eq] at h2
            have hlt : x < z := lt_trans h1 h2
            have hxz : ¬ x = z := ne_of_lt hlt
            simp only [chrLe, if_neg hxz, decide_eq_true_eq]
            exact hlt

theorem chrLe_total (a b : List Char) : chrLe a b = true ∨ chrLe b a = true := by
  induction a generalizing b with
  | nil => exact Or.inl rfl
  | cons x xs ih =>
    cases b with
    | nil => exact Or.inr rfl
    | cons y ys =>
      by_cases hxy : x = y
      · subst hxy
        rcases ih ys with h | h
        · exact Or.inl (by simp [chrLe, h])
        · exact Or.inr (by simp [chrLe, h])
      · rcases lt_or_gt_of_ne hxy with h | h
        · exact Or.inl (by simp [chrLe, hxy, h])
        · have hyx : ¬ y = x := fun hh => hxy hh.symm
          exact Or.inr (by simp [chrLe, hyx]; exact h)

theorem chrLe_antisymm (a b : List Char) (h1 : chrLe a b = true) (h2 : chrLe b a = true) :
    a = b := by
  induction a generalizing b with
  | nil =>
    cases b with
    | nil => rfl
    | cons y ys => simp [chrLe] at h2
  | cons x xs ih =>
    cases b with
    | nil => simp [chrLe] at h1
    | cons y ys =>
      by_cases hxy : x = y
      · subst hxy
        simp only [chrLe, if_pos rfl] at h1 h2
        rw [ih ys h1 h2]
      · have hyx : ¬ y = x := fun hh => hxy hh.symm
        simp only [chrLe, if_neg hxy, decide_eq_true_eq] at h1
        simp only [chrLe, if_neg hyx, decide_eq_true_eq] at h2
        exact absurd h2 (not_lt_of_gt h1)

theorem strLe_trans (a b c : String) (h1 : strLe a b = true) (h2 : strLe b c = true) :
    strLe a c = true :=
  chrLe_trans a.data b.data c.data h1 h2

theorem strLe_total (a b : String) : strLe a b = true ∨ strLe b a = true :=
  chrLe_total a.data b.data

theorem strLe_antisymm (a b : String) (h1 : strLe a b = true) (h2 : strLe b a = true) :
    a = b :=
  String.ext (chrLe_antisymm a.data b.data h1 h2)

theorem sortIns_perm (x : String) (l : List String) : List.Perm (sortIns x l) (x :: l) := by
  induction l with
  | nil => rfl
  | cons y ys ih =>
    by_cases h : strLe x y = true
    · simp [sortIns, h]
    · simp only [sortIns, h, if_false]
      exact ((ih.cons y).trans (List.Perm.swap x y ys))

theorem pysorted_perm (l : List String) : List.Perm (pysorted l) l := by
  induction l with
  | nil => rfl
  | cons x xs ih => exact (sortIns_perm x (pysorted xs)).trans (ih.cons x)

theorem mem_sortIns {z x : String} {l : List String} (h : z ∈ sortIns x l) :
    z = x ∨ z ∈ l := by
  have := (sortIns_perm x l).mem_iff.mp h
  simpa using this

theorem sortIns_pairwise (x : String) (l : List String)
    (h : List.Pairwise (fun a b => strLe a b = true) l) :
    List.Pairwise (fun a b => strLe a b = true) (sortIns x l) := by
  induction l with
  | nil => simp [sortIns]
  | cons y ys ih =>
    rcases List.pairwise_cons.mp h with ⟨hy, hys⟩
    by_cases hxy : strLe x y = true
    · simp only [sortIns, hxy, if_true]
      refine List.pairwise_cons.mpr ⟨?_, h⟩
      intro z hz
      rcases List.mem_cons.mp hz with hz | hz
      · rw [hz]; exact hxy
      · exact strLe_trans x y z hxy (hy z hz)
    · simp only [sortIns, hxy, if_false]
      refine List.pairwise_cons.mpr ⟨?_, ih hys⟩
      intro z hz
      rcases mem_sortIns hz with hz | hz
      · rw [hz]
        rcases strLe_total x y with h2 | h2
        · exact absurd h2 hxy
        · exact h2
      · exact hy z hz

theorem pysorted_pairwise (l : List String) :
    List.Pairwise (fun a b => strLe a b = true) (pysorted l) := by
  induction l with
  | nil => simp [pysorted]
  | cons x xs ih => exact sortIns_pairwise x (pysorted xs) ih

theorem pysorted_nodup {l : List String} (h : l.Nodup) : (pysorted l).Nodup :=
  (pysorted_perm l).symm.nodup h

theorem pysorted_eq_of_perm {l1 l2 : List String} (h : List.Perm l1 l2) :
    pysorted l1 = pysorted l2 := by
  haveI : IsAntisymm String (fun a b => strLe a b = true) :=
    ⟨fun a b h1 h2 => strLe_antisymm a b h1 h2⟩
  refine List.eq_of_perm_of_sorted ?_ (pysorted_pairwise l1) (pysorted_pairwise l2)
  exact (pysorted_perm l1).trans (h.trans (pysorted_perm l2).symm)

theorem mem_pysorted (z : String) (l : List String) : z ∈ pysorted l ↔ z ∈ l :=
  (pysorted_perm l).mem_iff

theorem dset_nodupKeys {β : Type} {d : List (String × β)} (k : String) (v : β)
    (h : (dkeys d).Nodup) : (dkeys (dset d k v)).Nodup := by
  induction d with
  | nil => simp [dset]
  | cons p rest ih =>
    obtain ⟨k2, v2⟩ := p
    simp only [dkeys_cons, List.nodup_cons] at h
    by_cases h2 : k2 = k
    · subst h2
      simp only [dset, eq_self_iff_true, if_true, dkeys_cons, List.nodup_cons]
      exact h
    · simp only [dset, h2, if_false, dkeys_cons, List.nodup_cons]
      refine ⟨?_, ih h.2⟩
      intro hmem
      rcases dkeys_dset_subset rest k v k2 hmem with h3 | h3
      · exact h.1 h3
      · exact h2 h3

theorem getReposAux_total (f : String → String) (gr : Row → String) (c : Nat)
    (rows : List Row) (acc : SheetResult) :
    getReposAux (fun s => some (f s)) gr c rows acc = some (getReposTAux f gr c rows acc) := by
  induction rows generalizing acc with
  | nil => rfl
  | cons r rs ih => simp [getReposAux, getReposTAux, ih]

theorem getReposTAux_absent (f : String → String) (gr : Row → String) (c : Nat)
    (rows : List Row) (acc : SheetResult) (K : String)
    (h : ∀ r ∈ rows, f (gr r) ≠ K) :
    dget (getReposTAux f gr c rows acc) K = dget acc K := by
  induction rows generalizing acc with
  | nil => rfl
  | cons r rs ih =>
    rw [getReposTAux, ih _ (fun r2 hr2 => h r2 (List.mem_cons_of_mem r hr2))]
    exact dget_dset_ne acc (f (gr r)) K (projOf r c)
      (fun hh => h r (List.mem_cons_self r rs) hh.symm)

theorem getReposTAux_last (f : String → String) (gr : Row → String) (c : Nat)
    (pre post : List Row) (rl : Row) (acc : SheetResult) (K : String)
    (hK : f (gr rl) = K)
    (hpost : ∀ r ∈ post, f (gr r) ≠ K) :
    dget (getReposTAux f gr c (pre ++ rl :: post) acc) K = some (projOf rl c) := by
  induction pre generalizing acc with
  | nil =>
    rw [List.nil_append, getReposTAux,
      getReposTAux_absent f gr c post _ K hpost, hK, dget_dset_self]
  | cons r rs ih =>
    rw [List.cons_append, getReposTAux]
    exact ih _

theorem getReposTAux_nodupKeys (f : String → String) (gr : Row → String) (c : Nat)
    (rows : List Row) (acc : SheetResult) (h : (dkeys acc).Nodup) :
    (dkeys (getReposTAux f gr c rows acc)).Nodup := by
  induction rows generalizing acc with
  | nil => exact h
  | cons r rs ih => exact ih _ (dset_nodupKeys _ _ h)

theorem getReposTAux_keys (f : String → String) (gr : Row → String) (c : Nat)
    (rows : List Row) (acc : SheetResult) (K P : String)
    (h : dget (getReposTAux f gr c rows acc) K = some P) :
    dget acc K = some P ∨ K ∈ rows.map (fun r => f (gr r)) := by
  induction rows generalizing acc with
  | nil => exact Or.inl h
  | cons r rs ih =>
    rcases ih _ h with h2 | h2
    · by_cases hk : K = f (gr r)
      · right
        simp [hk]
      · left
        rwa [dget_dset_ne _ _ _ _ hk] at h2
    · right
      exact List.mem_cons_of_mem _ h2

theorem getReposAux_fail (norm : String → Option String) (gr : Row → String) (c : Nat)
    (rows : List Row) (acc : SheetResult) (r : Row)
    (hr : r ∈ rows) (hn : norm (gr r) = none) :
    getReposAux norm gr c rows acc = none := by
  induction rows generalizing acc with
  | nil => cases hr
  | cons r0 rs ih =>
    rcases List.mem_cons.mp hr with h | h
    · subst h
      simp [getReposAux, hn]
    · cases h0 : norm (gr r0) with
      | none => simp [getReposAux, h0]
      | some v =>
        simp only [getReposAux, h0]
        exact ih _ h

theorem mem_setAdd_self (l : List String) (x : String) : x ∈ setAdd l x := by
  by_cases h : x ∈ l <;> simp [setAdd, h]

theorem mem_setAdd_of_mem {l : List String} {r : String} (x : String) (h : r ∈ l) :
    r ∈ setAdd l x := by
  by_cases h2 : x ∈ l <;> simp [setAdd, h2, h]

theorem setAdd_nodup {l : List String} (x : String) (h : l.Nodup) : (setAdd l x).Nodup := by
  by_cases h2 : x ∈ l
  · simpa [setAdd, h2] using h
  · rw [setAdd, if_neg h2]
    refine List.Nodup.append h (List.nodup_singleton x) ?_
    intro a ha hax
    rw [List.mem_singleton] at hax
    subst hax
    exact h2 ha

theorem aggAdd_self (t : RawTree) (ds repo proj : String) :
    rawRepoList (aggAdd t ds repo proj) proj ds = setAdd (rawRepoList t proj ds) repo := by
  cases htp : dget t proj with
  | none =>
    have h1 : dget ([] : List (String × List String)) ds = none := rfl
    simp [aggAdd, rawRepoList, htp, h1, dget_dset_self]
  | some e =>
    cases hds : dget e ds with
    | none => simp [aggAdd, rawRepoList, htp, hds, dget_dset_self]
    | some l => simp [aggAdd, rawRepoList, htp, hds, dget_dset_self]

theorem aggAdd_ne (t : RawTree) (ds repo proj p ds0 : String)
    (h : p ≠ proj ∨ ds0 ≠ ds) :
    rawRepoList (aggAdd t ds repo proj) p ds0 = rawRepoList t p ds0 := by
  by_cases hp : p = proj
  · subst hp
    have hds0 : ds0 ≠ ds := h.resolve_left (fun hh => hh rfl)
    cases htp : dget t p with
    | none =>
      have h1 : dget ([] : List (String × List String)) ds = none := rfl
      have h2 : dget ([] : List (String × List String)) ds0 = none := rfl
      simp [aggAdd, rawRepoList, htp, h1, h2, dget_dset_self,
        dget_dset_ne _ _ _ _ hds0]
    | some e =>
      cases hds : dget e ds with
      | none =>
        simp [aggAdd, rawRepoList, htp, hds, dget_dset_self,
          dget_dset_ne _ _ _ _ hds0]
      | some l =>
        simp [aggAdd, rawRepoList, htp, hds, dget_dset_self,
          dget_dset_ne _ _ _ _ hds0]
  · have hne : dget (aggAdd t ds repo proj) p = dget t p := by
      cases htp : dget t proj with
      | none =>
        simp only [aggAdd, htp, Option.isSome_none, Bool.false_eq_true, if_false]
        rw [dget_dset_ne _ _ _ _ hp, dget_dset_ne _ _ _ _ hp]
      | some e =>
        simp only [aggAdd, htp, Option.isSome_some, if_true]
        rw [dget_dset_ne _ _ _ _ hp]
    simp [rawRepoList, hne]

theorem aggAdd_mem (t : RawTree) (ds repo proj : String) :
    repo ∈ rawRepoList (aggAdd t ds repo proj) proj ds := by
  rw [aggAdd_self]
  exact mem_setAdd_self _ _

theorem aggAdd_mono {t : RawTree} {p ds0 r : String} (ds repo proj : String)
    (h : r ∈ rawRepoList t p ds0) :
    r ∈ rawRepoList (aggAdd t ds repo proj) p ds0 := by
  by_cases hp : p = proj
  · by_cases hds : ds0 = ds
    · subst hp
      subst hds
      rw [aggAdd_self]
      exact mem_setAdd_of_mem _ h
    · rwa [aggAdd_ne _ _ _ _ _ _ (Or.inr hds)]
  · rwa [aggAdd_ne _ _ _ _ _ _ (Or.inl hp)]

theorem aggItems_mono {t : RawTree} {p ds0 r : String} (ds : String)
    (items : List (String × String)) (h : r ∈ rawRepoList t p ds0) :
    r ∈ rawRepoList (aggItems ds items t) p ds0 := by
  induction items generalizing t with
  | nil => exact h
  | cons pr rest ih =>
    obtain ⟨repo, proj⟩ := pr
    exact ih (aggAdd_mono ds repo proj h)

theorem aggItems_mem {items : List (String × String)} {R P : String} (ds : String)
    (t : RawTree) (h : dget items R = some P) :
    R ∈ rawRepoList (aggItems ds items t) P ds := by
  induction items generalizing t with
  | nil => simp [dget] at h
  | cons pr rest ih =>
    obtain ⟨r0, p0⟩ := pr
    by_cases hr : r0 = R
    · subst hr
      have hP : p0 = P := by simpa [dget] using h
      subst hP
      exact aggItems_mono ds rest (aggAdd_mem t ds r0 p0)
    · simp only [dget, hr, if_false] at h
      exact ih _ h

theorem aggregate_mono {t : RawTree} {p ds0 r : String} (sp : Spreadsheet)
    (h : r ∈ rawRepoList t p ds0) :
    r ∈ rawRepoList (aggregate sp t) p ds0 := by
  induction sp generalizing t with
  | nil => exact h
  | cons pr rest ih =>
    obtain ⟨ds, items⟩ := pr
    exact ih (aggItems_mono ds items h)

theorem aggregate_mem {sp : Spreadsheet} {ds R P : String}
    {items : List (String × String)} (t : RawTree)
    (hsp : (ds, items) ∈ sp) (h : dget items R = some P) :
    R ∈ rawRepoList (aggregate sp t) P ds := by
  induction sp generalizing t with
  | nil => cases hsp
  | cons pr rest ih =>
    obtain ⟨ds0, items0⟩ := pr
    rcases List.mem_cons.mp hsp with h2 | h2
    · have hds : ds = ds0 := congrArg Prod.fst h2
      have hit : items = items0 := congrArg Prod.snd h2
      subst hds
      subst hit
      exact aggregate_mono rest (aggItems_mem ds t h)
    · exact ih _ h2

theorem dget_map {β γ : Type} (f : String → β → γ) (d : List (String × β)) (k : String) :
    dget (d.map (fun pr => (pr.1, f pr.1 pr.2))) k = (dget d k).map (f k) := by
  induction d with
  | nil => rfl
  | cons p rest ih =>
    obtain ⟨k2, v2⟩ := p
    by_cases h : k2 = k
    · subst h
      simp [dget]
    · simp [dget, h, ih]

theorem finalizeEntry_dget_ds (proj ds : String) (e : List (String × List String))
    (hds : ds ≠ "meta") :
    dget (finalizeEntry proj e) ds = (dget e ds).map (fun l => PValue.vlist (pysorted l)) := by
  simp only [finalizeEntry]
  split
  · exact dget_map (fun _ l => PValue.vlist (pysorted l)) e ds
  · rw [dget_dset_ne _ _ _ _ hds]
    exact dget_map (fun _ l => PValue.vlist (pysorted l)) e ds

theorem finalizeEntry_dget_meta (proj : String) (e : List (String × List String))
    (h : dget e "meta" = none) :
    dget (finalizeEntry proj e) "meta" = some (PValue.vstr (pyLower proj)) := by
  have hmap : dget (e.map fun pr => (pr.1, PValue.vlist (pysorted pr.2))) "meta" = none := by
    rw [dget_map (fun _ l => PValue.vlist (pysorted l)) e "meta", h]
    rfl
  simp only [finalizeEntry, hmap]
  simp [dget_dset_self]

theorem dget_finalize (t : RawTree) (p : String) :
    dget (finalize t) p = (dget t p).map (finalizeEntry p) :=
  dget_map finalizeEntry t p

theorem repoList_finalize {t : RawTree} {p ds r : String}
    (hds : ds ≠ "meta") (h : r ∈ rawRepoList t p ds) :
    r ∈ repoList (finalize t) p ds := by
  cases htp : dget t p with
  | none => simp [rawRepoList, htp] at h
  | some e =>
    cases hde : dget e ds with
    | none => simp [rawRepoList, htp, hde] at h
    | some l =>
      have hr : r ∈ l := by simpa [rawRepoList, htp, hde] using h
      have h1 : dget (finalize t) p = some (finalizeEntry p e) := by
        rw [dget_finalize, htp]
        rfl
      have h2 : dget (finalizeEntry p e) ds = some (PValue.vlist (pysorted l)) := by
        rw [finalizeEntry_dget_ds p ds e hds, hde]
        rfl
      simp [repoList, h1, h2, (mem_pysorted r l).mpr hr]

theorem adhoc_dget_ne (t : ProjectTree) (p : String) (hp : p ≠ "unknown") :
    dget (add_adhoc_repositories t) p = dget t p := by
  cases htp : dget t "unknown" with
  | none =>
    simp only [add_adhoc_repositories, htp, Option.isSome_none, Bool.false_eq_true, if_false]
    rw [dget_dset_ne _ _ _ _ hp, dget_dset_ne _ _ _ _ hp]
  | some e =>
    simp only [add_adhoc_repositories, htp, Option.isSome_some, if_true]
    rw [dget_dset_ne _ _ _ _ hp]

theorem adhoc_dget_unknown (t : ProjectTree) :
    dget (add_adhoc_repositories t) "unknown" =
      some (dset (dset (dset (dset (dset ((dget t "unknown").getD [])
        "bugzillarest" (PValue.vlist ["https://bugzilla.mozilla.org"]))
        "discourse" (PValue.vlist ["https://discourse.mozilla.org/"]))
        "mediawiki" (PValue.vlist ["https://wiki.mozilla.org"]))
        "mozillaclub" (PValue.vlist ["https://spreadsheets.google.com/feeds/cells/1QHl2bjBhMslyFzR5XXPzMLdzzx7oeSKTbgR5PM8qp64/ohaibtm/public/values?alt=json"]))
        "remo" (PValue.vlist ["https://reps.mozilla.org"])) := by
  cases htp : dget t "unknown" with
  | none =>
    simp only [add_adhoc_repositories, htp, Option.isSome_none, Bool.false_eq_true, if_false,
      dget_dset_self, Option.getD_some, Option.getD_none]
  | some e =>
    simp only [add_adhoc_repositories, htp, Option.isSome_some, if_true,
      dget_dset_self, Option.getD_some]

theorem adhoc_repoList_preserve {t : ProjectTree} {p ds r : String}
    (h1 : ds ≠ "bugzillarest") (h2 : ds ≠ "discourse") (h3 : ds ≠ "mediawiki")
    (h4 : ds ≠ "mozillaclub") (h5 : ds ≠ "remo")
    (h : r ∈ repoList t p ds) :
    r ∈ repoList (add_adhoc_repositories t) p ds := by
  by_cases hp : p = "unknown"
  · subst hp
    cases htp : dget t "unknown" with
    | none => simp [repoList, htp] at h
    | some e =>
      cases hde : dget e ds with
      | none => simp [repoList, htp, hde] at h
      | some v =>
        have hget : dget (add_adhoc_repositories t) "unknown" = some
            (dset (dset (dset (dset (dset e
              "bugzillarest" (PValue.vlist ["https://bugzilla.mozilla.org"]))
              "discourse" (PValue.vlist ["https://discourse.mozilla.org/"]))
              "mediawiki" (PValue.vlist ["https://wiki.mozilla.org"]))
              "mozillaclub" (PValue.vlist ["https://spreadsheets.google.com/feeds/cells/1QHl2bjBhMslyFzR5XXPzMLdzzx7oeSKTbgR5PM8qp64/ohaibtm/public/values?alt=json"]))
              "remo" (PValue.vlist ["https://reps.mozilla.org"])) := by
          rw [adhoc_dget_unknown, htp]
          rfl
        have hds : dget (dset (dset (dset (dset (dset e
            "bugzillarest" (PValue.vlist ["https://bugzilla.mozilla.org"]))
            "discourse" (PValue.vlist ["https://discourse.mozilla.org/"]))
            "mediawiki" (PValue.vlist ["https://wiki.mozilla.org"]))
            "mozillaclub" (PValue.vlist ["https://spreadsheets.google.com/feeds/cells/1QHl2bjBhMslyFzR5XXPzMLdzzx7oeSKTbgR5PM8qp64/ohaibtm/public/values?alt=json"]))
            "remo" (PValue.vlist ["https://reps.mozilla.org"])) ds = some v := by
          rw [dget_dset_ne _ _ _ _ h5, dget_dset_ne _ _ _ _ h4, dget_dset_ne _ _ _ _ h3,
            dget_dset_ne _ _ _ _ h2, dget_dset_ne _ _ _ _ h1, hde]
        cases v with
        | vstr s => simp [repoList, htp, hde] at h
        | vlist l =>
          have hr : r ∈ l := by simpa [repoList, htp, hde] using h
          simp [repoList, hget, hds, hr]
  · have hne := adhoc_dget_ne t p hp
    simpa [repoList, hne] using h

theorem strAppend_right_cancel {a b c : String} (h : a ++ c = b ++ c) : a = b := by
  have h2 : a.data ++ c.data = b.data ++ c.data := by
    rw [← String.data_append, ← String.data_append, h]
  exact String.ext (List.append_cancel_right h2)

theorem dset_keysP {β : Type} (P : String → Prop) {d : List (String × β)} {k : String}
    {v : β} (h0 : ∀ pr ∈ d, P pr.1) (hk : P k) :
    ∀ pr ∈ dset d k v, P pr.1 := by
  intro pr hpr
  rcases mem_dset hpr with h2 | h2
  · exact h0 pr h2
  · rw [h2]
    exact hk

theorem get_repos_total_inv {f : String → String} {gr : Row → String} {c : Nat}
    {rows : List Row} {res : SheetResult}
    (h : get_repos (fun s => some (f s)) gr c rows = some res) :
    res = getReposTotal f gr c rows := by
  have htot : get_repos (fun s => some (f s)) gr c rows
      = some (getReposTotal f gr c rows) :=
    getReposAux_total f gr c (rows.drop 1) []
  exact (Option.some.inj (htot.symm.trans h)).symm

theorem foldl_dset_append (l : List (String × String)) (acc : SheetResult)
    (hnd : (dkeys l).Nodup)
    (hfresh : ∀ pr ∈ l, (pr.1 ++ ".git") ∉ dkeys acc) :
    l.foldl (fun g pr => dset g (pr.1 ++ ".git") pr.2) acc
      = acc ++ l.map (fun pr => (pr.1 ++ ".git", pr.2)) := by
  induction l generalizing acc with
  | nil => simp
  | cons pr rest ih =>
    obtain ⟨r, p⟩ := pr
    simp only [dkeys_cons, List.nodup_cons] at hnd
    simp only [List.foldl_cons]
    rw [dset_append _ (hfresh (r, p) (List.mem_cons_self _ _))]
    rw [ih _ hnd.2 ?_]
    · simp
    · intro pr2 hpr2 hmem
      simp only [dkeys, List.map_append, List.mem_append] at hmem
      rcases hmem with hmem | hmem
      · exact hfresh pr2 (List.mem_cons_of_mem _ hpr2) (by simpa [dkeys] using hmem)
      · simp only [List.map_cons, List.map_nil, List.mem_singleton] at hmem
        have : pr2.1 = r := strAppend_right_cancel hmem
        exact hnd.1 (by simpa [dkeys, ← this] using List.mem_map_of_mem Prod.fst hpr2)

theorem gitFromGithub_eq {gh : SheetResult} (h : (dkeys gh).Nodup) :
    gitFromGithub gh = gh.map (fun pr => (pr.1 ++ ".git", pr.2)) := by
  rw [gitFromGithub, foldl_dset_append gh [] h (by intro pr hpr hmem; cases hmem)]
  rfl

theorem githubGetRepos_total {rows : List Row} {gh : SheetResult}
    (h : githubGetRepos rows = some gh) :
    gh = getReposTotal (fun s => s) (fun r => r.cell 0) 1 rows := by
  rw [githubGetRepos] at h
  exact get_repos_total_inv h

theorem githubGetRepos_nodupKeys {rows : List Row} {gh : SheetResult}
    (h : githubGetRepos rows = some gh) : (dkeys gh).Nodup := by
  rw [githubGetRepos_total h]
  exact getReposTAux_nodupKeys _ _ _ _ _ (by simp)

theorem processSheets_keysP (P : String → Prop)
    (h1 : P "github") (h2 : P "git") (h3 : P "bugzilla") (h4 : P "nntp")
    (h5 : P "discourse") (h6 : P "stackexchange") (h7 : P "meetup") (h8 : P "supybot") :
    ∀ (wb : List (String × List Row)) (sp0 sp : Spreadsheet),
      (∀ pr ∈ sp0, P pr.1) → processSheets wb sp0 = some sp → ∀ pr ∈ sp, P pr.1 := by
  intro wb
  induction wb with
  | nil =>
    intro sp0 sp h0 hps
    simp only [processSheets, Option.some.injEq] at hps
    rw [← hps]
    exact h0
  | cons sh rest ih =>
    intro sp0 sp h0 hps
    obtain ⟨name, rows⟩ := sh
    simp only [processSheets] at hps
    split at hps
    · split at hps
      · simp at hps
      · exact ih _ _ (dset_keysP P (dset_keysP P h0 h1) h2) hps
    · split at hps
      · split at hps
        · simp at hps
        · exact ih _ _ (dset_keysP P h0 h3) hps
      · split at hps
        · split at hps
          · simp at hps
          · exact ih _ _ (dset_keysP P h0 h4) hps
        · split at hps
          · split at hps
            · simp at hps
            · exact ih _ _ (dset_keysP P h0 h5) hps
          · split at hps
            · split at hps
              · simp at hps
              · exact ih _ _ (dset_keysP P h0 h6) hps
            · split at hps
              · split at hps
                · simp at hps
                · exact ih _ _ (dset_keysP P h0 h7) hps
              · split at hps
                · split at hps
                  · simp at hps
                  · exact ih _ _ (dset_keysP P h0 h8) hps
                · exact ih _ _ h0 hps

theorem gitInv_dset {sp : Spreadsheet} {k : String} {d : SheetResult}
    (h : GitInv sp) (hk1 : k ≠ "github") (hk2 : k ≠ "git") : GitInv (dset sp k d) := by
  intro gh hgh
  rw [dget_dset_ne _ _ _ _ (fun hh => hk1 hh.symm)] at hgh
  rw [dget_dset_ne _ _ _ _ (fun hh => hk2 hh.symm)]
  exact h gh hgh

theorem gitInv_github {sp : Spreadsheet} {gh : SheetResult} (hnd : (dkeys gh).Nodup) :
    GitInv (dset (dset sp "github" gh) "git" (gitFromGithub gh)) := by
  intro gh2 hgh
  have hne : ("github" : String) ≠ "git" := by decide
  rw [dget_dset_ne _ _ _ _ hne, dget_dset_self] at hgh
  rw [dget_dset_self, gitFromGithub_eq hnd, Option.some.inj hgh]

theorem processSheets_gitInv :
    ∀ (wb : List (String × List Row)) (sp0 sp : Spreadsheet),
      GitInv sp0 → processSheets wb sp0 = some sp → GitInv sp := by
  intro wb
  induction wb with
  | nil =>
    intro sp0 sp h0 hps
    simp only [processSheets, Option.some.injEq] at hps
    rw [← hps]
    exact h0
  | cons sh rest ih =>
    intro sp0 sp h0 hps
    obtain ⟨name, rows⟩ := sh
    simp only [processSheets] at hps
    split at hps
    · split at hps
      · simp at hps
      · rename_i gh heq
        exact ih _ _ (gitInv_github (githubGetRepos_nodupKeys heq)) hps
    · split at hps
      · split at hps
        · simp at hps
        · exact ih _ _ (gitInv_dset h0 (by decide) (by decide)) hps
      · split at hps
        · split at hps
          · simp at hps
          · exact ih _ _ (gitInv_dset h0 (by decide) (by decide)) hps
        · split at hps
          · split at hps
            · simp at hps
            · exact ih _ _ (gitInv_dset h0 (by decide) (by decide)) hps
          · split at hps
            · split at hps
              · simp at hps
              · exact ih _ _ (gitInv_dset h0 (by decide) (by decide)) hps
            · split at hps
              · split at hps
                · simp at hps
                · exact ih _ _ (gitInv_dset h0 (by decide) (by decide)) hps
              · split at hps
                · split at hps
                  · simp at hps
                  · exact ih _ _ (gitInv_dset h0 (by decide) (by decide)) hps
                · exact ih _ _ h0 hps

theorem aggAdd_dget_ne (t : RawTree) (ds repo proj p : String) (hp : p ≠ proj) :
    dget (aggAdd t ds repo proj) p = dget t p := by
  cases htp : dget t proj with
  | none =>
    simp only [aggAdd, htp, Option.isSome_none, Bool.false_eq_true, if_false]
    rw [dget_dset_ne _ _ _ _ hp, dget_dset_ne _ _ _ _ hp]
  | some e =>
    simp only [aggAdd, htp, Option.isSome_some, if_true]
    rw [dget_dset_ne _ _ _ _ hp]

theorem aggAdd_meta_aux (t : RawTree) (ds repo proj : String) (hds : ds ≠ "meta")
    (hmt : ∀ e, dget t proj = some e → dget e "meta" = none) :
    ∃ e1, dget (aggAdd t ds repo proj) proj
        = some (dset e1 ds (setAdd ((dget e1 ds).getD []) repo))
      ∧ dget e1 "meta" = none := by
  have hmne : ("meta" : String) ≠ ds := fun hh => hds hh.symm
  cases htp : dget t proj with
  | none =>
    refine ⟨dset [] ds [], ?_, ?_⟩
    · simp [aggAdd, htp, dget_dset_self, dget, dset]
    · rw [dget_dset_ne _ _ _ _ hmne]
      rfl
  | some e =>
    cases hde : dget e ds with
    | none =>
      refine ⟨dset e ds [], ?_, ?_⟩
      · simp [aggAdd, htp, hde, dget_dset_self]
      · rw [dget_dset_ne _ _ _ _ hmne]
        exact hmt e htp
    | some l =>
      refine ⟨e, ?_, hmt e htp⟩
      simp [aggAdd, htp, hde, dget_dset_self]

theorem aggAdd_metaFree {t : RawTree} {ds repo proj : String} (hds : ds ≠ "meta")
    (h : MetaFree t) : MetaFree (aggAdd t ds repo proj) := by
  intro p e2 hp
  by_cases hpp : p = proj
  · subst hpp
    obtain ⟨e1, hself, hmeta⟩ := aggAdd_meta_aux t ds repo p hds (fun e he => h p e he)
    rw [hself] at hp
    rw [← Option.some.inj hp]
    rw [dget_dset_ne _ _ _ _ (fun hh => hds hh.symm)]
    exact hmeta
  · rw [aggAdd_dget_ne _ _ _ _ _ hpp] at hp
    exact h p e2 hp

theorem aggItems_metaFree {t : RawTree} {ds : String} (items : List (String × String))
    (hds : ds ≠ "meta") (h : MetaFree t) : MetaFree (aggItems ds items t) := by
  induction items generalizing t with
  | nil => exact h
  | cons pr rest ih =>
    obtain ⟨repo, proj⟩ := pr
    exact ih (aggAdd_metaFree hds h)

theorem aggregate_metaFree {sp : Spreadsheet} {t : RawTree}
    (hsp : ∀ pr ∈ sp, pr.1 ≠ "meta") (h : MetaFree t) : MetaFree (aggregate sp t) := by
  induction sp generalizing t with
  | nil => exact h
  | cons pr rest ih =>
    obtain ⟨ds, items⟩ := pr
    exact ih (fun pr2 hpr2 => hsp pr2 (List.mem_cons_of_mem _ hpr2))
      (aggItems_metaFree items (hsp (ds, items) (List.mem_cons_self _ _)) h)

theorem aggAdd_rawNodup {t : RawTree} (ds repo proj : String) (h : RawNodup t) :
    RawNodup (aggAdd t ds repo proj) := by
  intro p ds0
  by_cases hp : p = proj
  · by_cases hd : ds0 = ds
    · subst hp
      subst hd
      rw [aggAdd_self]
      exact setAdd_nodup _ (h p ds0)
    · rw [aggAdd_ne _ _ _ _ _ _ (Or.inr hd)]
      exact h p ds0
  · rw [aggAdd_ne _ _ _ _ _ _ (Or.inl hp)]
    exact h p ds0

theorem aggItems_rawNodup {t : RawTree} (ds : String) (items : List (String × String))
    (h : RawNodup t) : RawNodup (aggItems ds items t) := by
  induction items generalizing t with
  | nil => exact h
  | cons pr rest ih =>
    obtain ⟨repo, proj⟩ := pr
    exact ih (aggAdd_rawNodup ds repo proj h)

theorem aggregate_rawNodup {sp : Spreadsheet} {t : RawTree} (h : RawNodup t) :
    RawNodup (aggregate sp t) := by
  induction sp generalizing t with
  | nil => exact h
  | cons pr rest ih =>
    obtain ⟨ds, items⟩ := pr
    exact ih (aggItems_rawNodup ds items h)

theorem rawNodup_nil : RawNodup [] := by
  intro p ds
  exact List.nodup_nil

theorem metaFree_nil : MetaFree [] := by
  intro p e hp
  simp [dget] at hp

theorem rawRepoList_eq {t : RawTree} {p ds : String} {e : List (String × List String)}
    {l : List String} (h1 : dget t p = some e) (h2 : dget e ds = some l) :
    rawRepoList t p ds = l := by
  simp [rawRepoList, h1, h2]

theorem finalize_dget_inv {t : RawTree} {p : String} {e : ProjectEntry}
    (h : dget (finalize t) p = some e) :
    ∃ rawE, dget t p = some rawE ∧ e = finalizeEntry p rawE := by
  rw [dget_finalize] at h
  cases htp : dget t p with
  | none =>
    rw [htp] at h
    simp at h
  | some rawE =>
    rw [htp] at h
    exact ⟨rawE, rfl, (Option.some.inj h).symm⟩

theorem finalizeEntry_vlist_inv {p k : String} {e : List (String × List String)}
    {l : List String} (h : dget (finalizeEntry p e) k = some (PValue.vlist l)) :
    ∃ l0, dget e k = some l0 ∧ l = pysorted l0 := by
  have hmap := dget_map (fun _ l2 => PValue.vlist (pysorted l2)) e k
  simp only [finalizeEntry] at h
  split at h
  · rw [hmap] at h
    cases hek : dget e k with
    | none =>
      rw [hek] at h
      simp at h
    | some l0 =>
      rw [hek] at h
      have h3 : some (PValue.vlist (pysorted l0)) = some (PValue.vlist l) := h
      exact ⟨l0, rfl, (PValue.vlist.inj (Option.some.inj h3)).symm⟩
  · by_cases hk : k = "meta"
    · subst hk
      rw [dget_dset_self] at h
      simp at h
    · rw [dget_dset_ne _ _ _ _ hk, hmap] at h
      cases hek : dget e k with
      | none =>
        rw [hek] at h
        simp at h
      | some l0 =>
        rw [hek] at h
        have h3 : some (PValue.vlist (pysorted l0)) = some (PValue.vlist l) := h
        exact ⟨l0, rfl, (PValue.vlist.inj (Option.some.inj h3)).symm⟩

theorem adhoc_vlist_inv {t : ProjectTree} {p k : String} {e : ProjectEntry}
    {l : List String}
    (h1 : dget (add_adhoc_repositories t) p = some e)
    (h2 : dget e k = some (PValue.vlist l)) :
    (∃ e0, dget t p = some e0 ∧ dget e0 k = some (PValue.vlist l))
    ∨ l = ["https://bugzilla.mozilla.org"]
    ∨ l = ["https://discourse.mozilla.org/"]
    ∨ l = ["https://wiki.mozilla.org"]
    ∨ l = ["https://spreadsheets.google.com/feeds/cells/1QHl2bjBhMslyFzR5XXPzMLdzzx7oeSKTbgR5PM8qp64/ohaibtm/public/values?alt=json"]
    ∨ l = ["https://reps.mozilla.org"] := by
  by_cases hp : p = "unknown"
  · subst hp
    rw [adhoc_dget_unknown] at h1
    rw [← Option.some.inj h1] at h2
    by_cases hk5 : k = "remo"
    · subst hk5
      rw [dget_dset_self] at h2
      exact Or.inr (Or.inr (Or.inr (Or.inr (Or.inr
        (PValue.vlist.inj (Option.some.inj h2)).symm))))
    · rw [dget_dset_ne _ _ _ _ hk5] at h2
      by_cases hk4 : k = "mozillaclub"
      · subst hk4
        rw [dget_dset_self] at h2
        exact Or.inr (Or.inr (Or.inr (Or.inr (Or.inl
          (PValue.vlist.inj (Option.some.inj h2)).symm))))
      · rw [dget_dset_ne _ _ _ _ hk4] at h2
        by_cases hk3 : k = "mediawiki"
        · subst hk3
          rw [dget_dset_self] at h2
          exact Or.inr (Or.inr (Or.inr (Or.inl
            (PValue.vlist.inj (Option.some.inj h2)).symm)))
        · rw [dget_dset_ne _ _ _ _ hk3] at h2
          by_cases hk2 : k = "discourse"
          · subst hk2
            rw [dget_dset_self] at h2
            exact Or.inr (Or.inr (Or.inl (PValue.vlist.inj (Option.some.inj h2)).symm))
          · rw [dget_dset_ne _ _ _ _ hk2] at h2
            by_cases hk1 : k = "bugzillarest"
            · subst hk1
              rw [dget_dset_self] at h2
              exact Or.inr (Or.inl (PValue.vlist.inj (Option.some.inj h2)).symm)
            · rw [dget_dset_ne _ _ _ _ hk1] at h2
              cases htp : dget t "unknown" with
              | none =>
                rw [htp] at h2
                simp [dget] at h2
              | some e0 =>
                rw [htp] at h2
                exact Or.inl ⟨e0, rfl, h2⟩
  · rw [adhoc_dget_ne t p hp] at h1
    exact Or.inl ⟨e, h1, h2⟩

theorem isPre_nil_false {pat : List Char} (h : pat ≠ []) : isPre pat [] = false := by
  cases pat with
  | nil => exact absurd rfl h
  | cons c cs => rfl

theorem isEmpty_false_of_ne {pat : List Char} (h : pat ≠ []) : pat.isEmpty = false := by
  cases pat with
  | nil => exact absurd rfl h
  | cons c cs => rfl

theorem repAllF_no_occ (pat rep : List Char) (hpat : pat ≠ []) :
    ∀ (l : List Char) (fuel : Nat), l.length ≤ fuel →
      (∀ i, isPre pat (l.drop i) = false) → repAllF pat rep fuel l = l := by
  intro l
  induction l with
  | nil =>
    intro fuel _ h
    cases fuel with
    | zero => simp [repAllF, isPre_nil_false hpat]
    | succ n => simp [repAllF, isPre_nil_false hpat]
  | cons c cs ih =>
    intro fuel hlen h
    cases fuel with
    | zero => simp at hlen
    | succ n =>
      have h0 : isPre pat (c :: cs) = false := by simpa using h 0
      simp only [repAllF, isEmpty_false_of_ne hpat, Bool.false_eq_true, if_false, h0]
      congr 1
      exact ih n (by simpa using hlen) (fun i => by simpa using h (i + 1))

theorem repAllF_single_occ (pat rep : List Char) (hpat : pat ≠ []) (l : List Char)
    (h0 : isPre pat l = true) (h : ∀ i, 0 < i → isPre pat (l.drop i) = false) :
    repAllF pat rep l.length l = rep ++ l.drop pat.length := by
  cases l with
  | nil =>
    rw [isPre_nil_false hpat] at h0
    cases h0
  | cons c cs =>
    have hplen : 1 ≤ pat.length := by
      cases pat with
      | nil => exact absurd rfl hpat
      | cons p ps => exact Nat.succ_le_succ (Nat.zero_le _)
    simp only [List.length_cons, repAllF, isEmpty_false_of_ne hpat, Bool.false_eq_true,
      if_false, h0, if_true]
    congr 1
    refine repAllF_no_occ pat rep hpat _ _ ?_ ?_
    · simp only [List.length_drop, List.length_cons]
      omega
    · intro i
      rw [List.drop_drop]
      exact h (pat.length + i) (by omega)

theorem repFirst_no_occ (pat rep : List Char) :
    ∀ l, (∀ i, isPre pat (l.drop i) = false) → repFirst pat rep l = l := by
  intro l
  induction l with
  | nil =>
    intro h
    have h0 : isPre pat [] = false := by simpa using h 0
    simp [repFirst, h0]
  | cons c cs ih =>
    intro h
    have h0 : isPre pat (c :: cs) = false := by simpa using h 0
    simp only [repFirst, h0, Bool.false_eq_true, if_false]
    congr 1
    exact ih (fun i => by simpa using h (i + 1))

theorem repFirst_occ_at (pat rep : List Char) (hpat : pat ≠ []) :
    ∀ (l : List Char) (i : Nat), isPre pat (l.drop i) = true →
      (∀ j, j < i → isPre pat (l.drop j) = false) →
      repFirst pat rep l = l.take i ++ rep ++ l.drop (i + pat.length) := by
  intro l
  induction l with
  | nil =>
    intro i h0 _
    rw [List.drop_nil] at h0
    rw [isPre_nil_false hpat] at h0
    cases h0
  | cons c cs ih =>
    intro i h0 hlt
    cases i with
    | zero =>
      simp only [List.drop_zero] at h0
      simp [repFirst, h0]
    | succ n =>
      have hc : isPre pat (c :: cs) = false := by simpa using hlt 0 (Nat.succ_pos n)
      simp only [repFirst, hc, Bool.false_eq_true, if_false]
      rw [ih n (by simpa using h0) (fun j hj => by simpa using hlt (j + 1) (by omega))]
      have harith : n + 1 + pat.length = (n + pat.length) + 1 := by omega
      rw [harith]
      simp [List.take_succ_cons, List.drop_succ_cons]

theorem rfindD_occ {pat l : List Char} {j : Nat} (h : rfindD pat l = some j) :
    isPre pat (l.drop j) = true := by
  induction l generalizing j with
  | nil =>
    simp only [rfindD] at h
    split at h
    · rw [← Option.some.inj h, List.drop_nil]
      assumption
    · cases h
  | cons c cs ih =>
    simp only [rfindD] at h
    cases hrec : rfindD pat cs with
    | some j2 =>
      rw [hrec] at h
      have h2 : some (j2 + 1) = some j := h
      rw [← Option.some.inj h2, List.drop_succ_cons]
      exact ih hrec
    | none =>
      rw [hrec] at h
      have h2 : (if isPre pat (c :: cs) then some 0 else (none : Option Nat)) = some j := h
      split at h2
      · rw [← Option.some.inj h2, List.drop_zero]
        assumption
      · cases h2

theorem rfindD_none_iff {pat : List Char} (hpat : pat ≠ []) :
    ∀ l, rfindD pat l = none ↔ ∀ i, isPre pat (l.drop i) = false := by
  intro l
  induction l with
  | nil => simp [rfindD, isPre_nil_false hpat]
  | cons c cs ih =>
    constructor
    · intro h i
      simp only [rfindD] at h
      cases hrec : rfindD pat cs with
      | some j =>
        rw [hrec] at h
        have h2 : some (j + 1) = (none : Option Nat) := h
        cases h2
      | none =>
        rw [hrec] at h
        have h2 : (if isPre pat (c :: cs) then some 0 else (none : Option Nat)) = none := h
        cases i with
        | zero =>
          by_cases hp : isPre pat (c :: cs) = true
          · rw [if_pos hp] at h2
            cases h2
          · simpa using hp
        | succ n =>
          rw [List.drop_succ_cons]
          exact (ih.mp hrec) n
    · intro h
      simp only [rfindD]
      cases hrec : rfindD pat cs with
      | some j =>
        exfalso
        have hocc := rfindD_occ hrec
        have h2 := h (j + 1)
        rw [List.drop_succ_cons, hocc] at h2
        cases h2
      | none =>
        have h0 := h 0
        simp only [List.drop_zero] at h0
        simp [h0]

theorem rfindD_max {pat l : List Char} {j : Nat} (hpat : pat ≠ [])
    (h : rfindD pat l = some j) :
    ∀ i, j < i → isPre pat (l.drop i) = false := by
  induction l generalizing j with
  | nil =>
    intro i _
    rw [List.drop_nil]
    exact isPre_nil_false hpat
  | cons c cs ih =>
    intro i hi
    simp only [rfindD] at h
    cases hrec : rfindD pat cs with
    | some j2 =>
      rw [hrec] at h
      have h2 : some (j2 + 1) = some j := h
      have hj : j2 + 1 = j := Option.some.inj h2
      cases i with
      | zero => omega
      | succ n =>
        rw [List.drop_succ_cons]
        exact ih hrec n (by omega)
    | none =>
      rw [hrec] at h
      have h2 : (if isPre pat (c :: cs) then some 0 else (none : Option Nat)) = some j := h
      split at h2
      · cases i with
        | zero => omega
        | succ n =>
          rw [List.drop_succ_cons]
          exact ((rfindD_none_iff hpat cs).mp hrec) n
      · cases h2

theorem pyRfind_eq_zero_iff {s sub : String} (hpat : sub.data ≠ []) :
    pyRfind s sub = 0 ↔ (isPre sub.data s.data = true
      ∧ ∀ i, 0 < i → isPre sub.data (s.data.drop i) = false) := by
  rw [pyRfind]
  cases hrec : rfindD sub.data s.data with
  | none =>
    constructor
    · intro h
      exact absurd h (by decide)
    · rintro ⟨h0, _⟩
      have := ((rfindD_none_iff hpat s.data).mp hrec) 0
      rw [List.drop_zero, h0] at this
      cases this
  | some j =>
    constructor
    · intro h
      have h2 : (j : Int) = 0 := h
      have hj : j = 0 := by exact_mod_cast h2
      subst hj
      refine ⟨by simpa using rfindD_occ hrec, ?_⟩
      intro i hi
      exact rfindD_max hpat hrec i hi
    · rintro ⟨h0, hmax⟩
      have hocc := rfindD_occ hrec
      rcases Nat.eq_zero_or_pos j with hj | hj
      · subst hj
        rfl
      · rw [hmax j hj] at hocc
        cases hocc

theorem processSheets_cons_cases (name : String) (rws : List Row)
    (rest : List (String × List Row)) (sp0 : Spreadsheet) :
    processSheets ((name, rws) :: rest) sp0 = none ∨
    ∃ sp1, processSheets ((name, rws) :: rest) sp0 = processSheets rest sp1 := by
  simp only [processSheets]
  split
  · cases hs : githubGetRepos rws with
    | none => exact Or.inl (by simp)
    | some d => exact Or.inr ⟨_, rfl⟩
  · split
    · cases hs : bugzillaGetRepos rws with
      | none => exact Or.inl (by simp)
      | some d => exact Or.inr ⟨_, rfl⟩
    · split
      · cases hs : emailGetRepos rws with
        | none => exact Or.inl (by simp)
        | some d => exact Or.inr ⟨_, rfl⟩
      · split
        · cases hs : discourseGetRepos rws with
          | none => exact Or.inl (by simp)
          | some d => exact Or.inr ⟨_, rfl⟩
        · split
          · cases hs : stackGetRepos rws with
            | none => exact Or.inl (by simp)
            | some d => exact Or.inr ⟨_, rfl⟩
          · split
            · cases hs : meetupGetRepos rws with
              | none => exact Or.inl (by simp)
              | some d => exact Or.inr ⟨_, rfl⟩
            · split
              · cases hs : ircGetRepos rws with
                | none => exact Or.inl (by simp)
                | some d => exact Or.inr ⟨_, rfl⟩
              · exact Or.inr ⟨sp0, rfl⟩

theorem processSheets_fail :
    ∀ (wb : List (String × List Row)) (rows : List Row) (sp0 : Spreadsheet),
      ("Discourse", rows) ∈ wb → discourseGetRepos rows = none →
      processSheets wb sp0 = none := by
  intro wb
  induction wb with
  | nil =>
    intro rows sp0 h
    cases h
  | cons sh rest ih =>
    intro rows sp0 hmem hfail
    obtain ⟨name, rws⟩ := sh
    rcases List.mem_cons.mp hmem with h2 | h2
    · have hn : name = "Discourse" := (congrArg Prod.fst h2).symm
      have hr : rws = rows := (congrArg Prod.snd h2).symm
      subst hn
      subst hr
      simp [processSheets, hfail]
    · rcases processSheets_cons_cases name rws rest sp0 with hc | ⟨sp1, hc⟩
      · exact hc
      · rw [hc]
        exact ih rows sp1 h2 hfail

theorem finalizeEntry_congr {p : String} {e1 e2 : List (String × List String)}
    (h : EntryEquiv e1 e2) : finalizeEntry p e1 = finalizeEntry p e2 := by
  have hmap : e1.map (fun pr => (pr.1, PValue.vlist (pysorted pr.2)))
      = e2.map (fun pr => (pr.1, PValue.vlist (pysorted pr.2))) := by
    induction h with
    | nil => rfl
    | cons hab hrest ih =>
      simp only [List.map_cons, ih]
      obtain ⟨h1, h2⟩ := hab
      have h3 := pysorted_eq_of_perm h2
      rw [h1, h3]
  rw [finalizeEntry, finalizeEntry, hmap]

theorem finalize_congr {t1 t2 : RawTree} (h : RawTreeEquiv t1 t2) :
    finalize t1 = finalize t2 := by
  induction h with
  | nil => rfl
  | cons hab hrest ih =>
    obtain ⟨h1, h2⟩ := hab
    simp only [finalize, List.map_cons] at ih ⊢
    rw [h1, finalizeEntry_congr h2, ih]

/-- C1 (counterexample): on the empty workbook, the final tree contains the
project `unknown` but its object has no `meta` key — refuting the claim
that every top-level project object, including `unknown`, has one. -/
theorem C1_counterexample :
    ((runMain []).bind (fun t => dget t "unknown")).isSome = true
    ∧ ((runMain []).bind (fun t => dget t "unknown")).bind (fun e => dget e "meta")
      = none := by
  decide

/-- C1 (amended): in the final JSON tree every project object other than a
`unknown` object freshly created by `add_adhoc_repositories` contains a
`meta` key whose value is the project name lowercased — this includes a
project literally named `unknown` that already existed before the adhoc
injection; the reserved project `unknown` lacks `meta` exactly when it did
not exist before the injection. -/
theorem C1_meta_lowercase (wb : List (String × List Row)) (sp : Spreadsheet)
    (t : ProjectTree) (p : String) (e : ProjectEntry)
    (hps : processSheets wb [] = some sp)
    (hrun : runMain wb = some t)
    (hget : dget t p = some e) :
    (p ≠ "unknown" → dget e "meta" = some (PValue.vstr (pyLower p)))
    ∧ (p = "unknown" →
        ((dget (finalize (aggregate sp [])) "unknown").isSome = true →
          dget e "meta" = some (PValue.vstr (pyLower p)))
        ∧ (dget (finalize (aggregate sp [])) "unknown" = none →
          dget e "meta" = none)) := by
  rw [runMain, hps] at hrun
  have hrun2 : some (add_adhoc_repositories (finalize (aggregate sp []))) = some t := hrun
  have ht : t = add_adhoc_repositories (finalize (aggregate sp [])) :=
    (Option.some.inj hrun2).symm
  subst ht
  have hmf : MetaFree (aggregate sp []) := by
    refine aggregate_metaFree ?_ metaFree_nil
    intro pr hpr
    exact processSheets_keysP (fun k => k ≠ "meta") (by decide) (by decide) (by decide)
      (by decide) (by decide) (by decide) (by decide) (by decide) wb [] sp
      (by intro pr2 hpr2; cases hpr2) hps pr hpr
  constructor
  · intro hp
    rw [adhoc_dget_ne _ _ hp] at hget
    obtain ⟨rawE, hraw, hE⟩ := finalize_dget_inv hget
    rw [hE]
    exact finalizeEntry_dget_meta p rawE (hmf p rawE hraw)
  · intro hp
    subst hp
    rw [adhoc_dget_unknown] at hget
    have he : e = dset (dset (dset (dset (dset
        ((dget (finalize (aggregate sp [])) "unknown").getD [])
        "bugzillarest" (PValue.vlist ["https://bugzilla.mozilla.org"]))
        "discourse" (PValue.vlist ["https://discourse.mozilla.org/"]))
        "mediawiki" (PValue.vlist ["https://wiki.mozilla.org"]))
        "mozillaclub" (PValue.vlist ["https://spreadsheets.google.com/feeds/cells/1QHl2bjBhMslyFzR5XXPzMLdzzx7oeSKTbgR5PM8qp64/ohaibtm/public/values?alt=json"]))
        "remo" (PValue.vlist ["https://reps.mozilla.org"]) :=
      (Option.some.inj hget).symm
    have hmeta : dget e "meta"
        = dget ((dget (finalize (aggregate sp [])) "unknown").getD []) "meta" := by
      rw [he, dget_dset_ne _ _ _ _ (by decide), dget_dset_ne _ _ _ _ (by decide),
        dget_dset_ne _ _ _ _ (by decide), dget_dset_ne _ _ _ _ (by decide),
        dget_dset_ne _ _ _ _ (by decide)]
    constructor
    · intro hsome
      cases hT0 : dget (finalize (aggregate sp [])) "unknown" with
      | none =>
        rw [hT0] at hsome
        simp at hsome
      | some E0 =>
        rw [hmeta, hT0]
        obtain ⟨rawE, hraw, hE⟩ := finalize_dget_inv hT0
        have hE0 : dget E0 "meta" = some (PValue.vstr (pyLower "unknown")) := by
          rw [hE]
          exact finalizeEntry_dget_meta "unknown" rawE (hmf "unknown" rawE hraw)
        exact hE0
    · intro hnone
      rw [hmeta, hnone]
      rfl

/-- Witness for the amended C1 claim: a regular project gets its lowercased
`meta`, a freshly adhoc-created `unknown` has none, and a pre-existing
project literally named `unknown` keeps `meta = "unknown"`. -/
theorem C1_meta_lowercase_witness :
    dget [("meetup", PValue.vlist ["X"]), ("meta", PValue.vstr "mozilla")] "meta"
      = some (PValue.vstr (pyLower "Mozilla"))
    ∧ dget adhocEntry "meta" = none
    ∧ dget eU "meta" = some (PValue.vstr (pyLower "unknown")) := by
  refine ⟨?_, ?_, ?_⟩
  · exact (C1_meta_lowercase wbC1 spC1 tC1 "Mozilla"
      [("meetup", PValue.vlist ["X"]), ("meta", PValue.vstr "mozilla")]
      rfl rfl rfl).1 (by decide)
  · exact ((C1_meta_lowercase wbC1 spC1 tC1 "unknown" adhocEntry rfl rfl rfl).2 rfl).2 rfl
  · exact ((C1_meta_lowercase wbU spU tU "unknown" eU rfl rfl rfl).2 rfl).1 rfl

/-- C3: `add_adhoc_repositories` unconditionally files the five fixed adhoc
entries under the `unknown` project of any tree, overwriting same-named
keys; the `unknown` project always exists afterwards. -/
theorem C3_adhoc_entries (t : ProjectTree) :
    (dget (add_adhoc_repositories t) "unknown").isSome = true
    ∧ treeVal (add_adhoc_repositories t) "unknown" "bugzillarest"
        = some (PValue.vlist ["https://bugzilla.mozilla.org"])
    ∧ treeVal (add_adhoc_repositories t) "unknown" "discourse"
        = some (PValue.vlist ["https://discourse.mozilla.org/"])
    ∧ treeVal (add_adhoc_repositories t) "unknown" "mediawiki"
        = some (PValue.vlist ["https://wiki.mozilla.org"])
    ∧ treeVal (add_adhoc_repositories t) "unknown" "mozillaclub"
        = some (PValue.vlist ["https://spreadsheets.google.com/feeds/cells/1QHl2bjBhMslyFzR5XXPzMLdzzx7oeSKTbgR5PM8qp64/ohaibtm/public/values?alt=json"])
    ∧ treeVal (add_adhoc_repositories t) "unknown" "remo"
        = some (PValue.vlist ["https://reps.mozilla.org"]) := by
  refine ⟨?_, ?_, ?_, ?_, ?_, ?_⟩
  · rw [adhoc_dget_unknown]
    rfl
  · rw [treeVal, adhoc_dget_unknown, Option.some_bind]
    rw [dget_dset_ne _ _ _ _ (by decide), dget_dset_ne _ _ _ _ (by decide),
      dget_dset_ne _ _ _ _ (by decide), dget_dset_ne _ _ _ _ (by decide), dget_dset_self]
  · rw [treeVal, adhoc_dget_unknown, Option.some_bind]
    rw [dget_dset_ne _ _ _ _ (by decide), dget_dset_ne _ _ _ _ (by decide),
      dget_dset_ne _ _ _ _ (by decide), dget_dset_self]
  · rw [treeVal, adhoc_dget_unknown, Option.some_bind]
    rw [dget_dset_ne _ _ _ _ (by decide), dget_dset_ne _ _ _ _ (by decide), dget_dset_self]
  · rw [treeVal, adhoc_dget_unknown, Option.some_bind]
    rw [dget_dset_ne _ _ _ _ (by decide), dget_dset_self]
  · rw [treeVal, adhoc_dget_unknown, Option.some_bind]
    rw [dget_dset_self]

/-- C2 (counterexample): `news.mozilla.org-news.mozilla.org-x` starts with
the pattern `news.mozilla.org-` yet `EmailSheet._normalize_repo` returns it
unchanged (the guard uses `rfind`, which here finds the later occurrence),
refuting the claim that the leading occurrence is always replaced. -/
theorem C2_counterexample :
    EmailSheet_normalize_repo "news.mozilla.org-news.mozilla.org-x"
      = "news.mozilla.org-news.mozilla.org-x"
    ∧ isPre "news.mozilla.org-".data "news.mozilla.org-news.mozilla.org-x".data = true
    ∧ "news.mozilla.org-news.mozilla.org-x" ≠ "news.mozilla.org news.mozilla.org-x" := by
  decide

/-- C2 (amended): `EmailSheet._normalize_repo` rewrites the leading
`news.mozilla.org-` to `news.mozilla.org ` only when the last
occurrence of the pattern is at position 0 — i.e. the string starts with it and
the pattern occurs nowhere later; a string that does not start with the
pattern, or that starts with it but also contains a later occurrence, is
returned unchanged. -/
theorem C2_email_normalize (s : String) :
    (isPre "news.mozilla.org-".data s.data = true →
      (∀ i, i < s.data.length → 0 < i →
        isPre "news.mozilla.org-".data (s.data.drop i) = false) →
      EmailSheet_normalize_repo s
        = String.mk ("news.mozilla.org ".data
            ++ s.data.drop "news.mozilla.org-".data.length))
    ∧ (isPre "news.mozilla.org-".data s.data = false →
        EmailSheet_normalize_repo s = s)
    ∧ (∀ i, 0 < i → isPre "news.mozilla.org-".data (s.data.drop i) = true →
        EmailSheet_normalize_repo s = s) := by
  have hpat : "news.mozilla.org-".data ≠ [] := by decide
  refine ⟨?_, ?_, ?_⟩
  · intro h0 hbdd
    have hall : ∀ i, 0 < i → isPre "news.mozilla.org-".data (s.data.drop i) = false := by
      intro i hi
      by_cases hlen : i < s.data.length
      · exact hbdd i hlen hi
      · have hdrop : s.data.drop i = [] := List.drop_eq_nil_of_le (by omega)
        rw [hdrop]
        exact isPre_nil_false hpat
    have hr0 : pyRfind s "news.mozilla.org-" = 0 :=
      (pyRfind_eq_zero_iff hpat).mpr ⟨h0, hall⟩
    rw [EmailSheet_normalize_repo, if_pos hr0, pyReplace]
    congr 1
    exact repAllF_single_occ "news.mozilla.org-".data "news.mozilla.org ".data hpat
      s.data h0 hall
  · intro h0
    have hne : ¬ (pyRfind s "news.mozilla.org-" = 0) := by
      intro hc
      obtain ⟨h1, _⟩ := (pyRfind_eq_zero_iff hpat).mp hc
      rw [h0] at h1
      cases h1
    rw [EmailSheet_normalize_repo, if_neg hne]
  · intro i hi hocc
    have hne : ¬ (pyRfind s "news.mozilla.org-" = 0) := by
      intro hc
      obtain ⟨_, hmax⟩ := (pyRfind_eq_zero_iff hpat).mp hc
      rw [hmax i hi] at hocc
      cases hocc
    rw [EmailSheet_normalize_repo, if_neg hne]

/-- Witness for the amended C2 claim at the example string of the spec. -/
theorem C2_email_normalize_witness :
    EmailSheet_normalize_repo "news.mozilla.org-dev.platform"
      = "news.mozilla.org dev.platform" := by
  have h := (C2_email_normalize "news.mozilla.org-dev.platform").1 (by decide) (by decide)
  rw [h]
  decide

/-- C9: within one sheet, when two data rows produce the same repo key the
later row silently overwrites the earlier assignment: the sheet
result maps the key to the project of the last producing row, and
`get_repos` (with any non-raising normalizer) never fails on a collision. -/
theorem C9_last_row_wins (norm : String → String) (gr : Row → String) (c : Nat)
    (rows pre mid post : List Row) (r1 r2 : Row)
    (hsplit : rows.drop 1 = pre ++ r1 :: (mid ++ r2 :: post))
    (hkey : norm (gr r2) = norm (gr r1))
    (hpost : ∀ r ∈ post, norm (gr r) ≠ norm (gr r1)) :
    get_repos (fun s => some (norm s)) gr c rows
      = some (getReposTotal norm gr c rows)
    ∧ dget (getReposTotal norm gr c rows) (norm (gr r1)) = some (projOf r2 c) := by
  constructor
  · exact getReposAux_total norm gr c (rows.drop 1) []
  · rw [getReposTotal, hsplit]
    have hassoc : pre ++ r1 :: (mid ++ r2 :: post) = (pre ++ r1 :: mid) ++ r2 :: post := by
      simp
    rw [hassoc]
    exact getReposTAux_last norm gr c (pre ++ r1 :: mid) post r2 [] (norm (gr r1)) hkey hpost

/-- Witness for C9: two rows with key `K`; the project of the second row wins. -/
theorem C9_last_row_wins_witness :
    get_repos (fun s => some s) (fun r => r.cell 0) 1 [⟨fun _ => "h"⟩, rowK1, rowK2]
      = some (getReposTotal (fun s => s) (fun r => r.cell 0) 1 [⟨fun _ => "h"⟩, rowK1, rowK2])
    ∧ dget (getReposTotal (fun s => s) (fun r => r.cell 0) 1 [⟨fun _ => "h"⟩, rowK1, rowK2]) "K"
      = some "P2" :=
  C9_last_row_wins (fun s => s) (fun r => r.cell 0) 1 [⟨fun _ => "h"⟩, rowK1, rowK2]
    [] [] [] rowK1 rowK2 rfl rfl (by intro r hr; cases hr)

/-- C5: a Bugzilla sheet row with cells url, product, component, project
(with a non-empty project cell, and whose key is not reproduced by a later
row) is stored under the key
`url ++ "/bugs/buglist.cgi?product=" ++ product` (spaces to `+`)
`++ "&component=" ++ component` (spaces to `+`), mapped to the project of
column 3, and the key is filed in the final tree under that project and
kind `bugzilla`. -/
theorem C5_bugzilla_repo_key (wb : List (String × List Row)) (sp : Spreadsheet)
    (bz : SheetResult) (t : ProjectTree) (rows pre post : List Row) (r : Row)
    (hps : processSheets wb [] = some sp)
    (hrun : runMain wb = some t)
    (hbz : dget sp "bugzilla" = some bz)
    (hrows : bugzillaGetRepos rows = some bz)
    (hsplit : rows.drop 1 = pre ++ r :: post)
    (hproj : r.cell 3 ≠ "")
    (hlast : ∀ r2 ∈ post,
      r2.cell 0 ++ "/bugs/buglist.cgi?" ++ "product=" ++ pyReplace (r2.cell 1) " " "+"
        ++ "&component=" ++ pyReplace (r2.cell 2) " " "+"
      ≠ r.cell 0 ++ "/bugs/buglist.cgi?" ++ "product=" ++ pyReplace (r.cell 1) " " "+"
        ++ "&component=" ++ pyReplace (r.cell 2) " " "+") :
    dget bz (r.cell 0 ++ "/bugs/buglist.cgi?" ++ "product=" ++ pyReplace (r.cell 1) " " "+"
        ++ "&component=" ++ pyReplace (r.cell 2) " " "+") = some (r.cell 3)
    ∧ (r.cell 0 ++ "/bugs/buglist.cgi?" ++ "product=" ++ pyReplace (r.cell 1) " " "+"
        ++ "&component=" ++ pyReplace (r.cell 2) " " "+")
      ∈ repoList t (r.cell 3) "bugzilla" := by
  have hbzt : bz = getReposTotal (fun s => s)
      (fun row => normalized_bzrepo (row.cell 0) (row.cell 1) (row.cell 2)) 3 rows := by
    rw [bugzillaGetRepos] at hrows
    exact get_repos_total_inv hrows
  have hprojeq : projOf r 3 = r.cell 3 := by
    rw [projOf, if_neg hproj]
  have hdget : dget bz (r.cell 0 ++ "/bugs/buglist.cgi?" ++ "product="
      ++ pyReplace (r.cell 1) " " "+" ++ "&component=" ++ pyReplace (r.cell 2) " " "+")
      = some (r.cell 3) := by
    rw [hbzt, getReposTotal, hsplit, ← hprojeq]
    exact getReposTAux_last _ _ 3 pre post r [] _ rfl (fun r2 h2 => hlast r2 h2)
  refine ⟨hdget, ?_⟩
  rw [runMain, hps] at hrun
  have hrun2 : some (add_adhoc_repositories (finalize (aggregate sp []))) = some t := hrun
  have ht := (Option.some.inj hrun2).symm
  subst ht
  have hmem : ("bugzilla", bz) ∈ sp := dget_mem hbz
  have hraw := aggregate_mem ([] : RawTree) hmem hdget
  exact adhoc_repoList_preserve (by decide) (by decide) (by decide) (by decide) (by decide)
    (repoList_finalize (by decide) hraw)

/-- Witness for C5 at the worked example in the spec. -/
theorem C5_bugzilla_repo_key_witness :
    dget [("http://bugzilla.example/bugs/buglist.cgi?product=Core&component=XML+Parser",
        "Mozilla")]
      ("http://bugzilla.example" ++ "/bugs/buglist.cgi?" ++ "product="
        ++ pyReplace "Core" " " "+" ++ "&component=" ++ pyReplace "XML Parser" " " "+")
      = some "Mozilla"
    ∧ ("http://bugzilla.example" ++ "/bugs/buglist.cgi?" ++ "product="
        ++ pyReplace "Core" " " "+" ++ "&component=" ++ pyReplace "XML Parser" " " "+")
      ∈ repoList tBZ "Mozilla" "bugzilla" :=
  C5_bugzilla_repo_key [("Bugzilla", [hdrRow, rowBZ])]
    [("bugzilla",
      [("http://bugzilla.example/bugs/buglist.cgi?product=Core&component=XML+Parser",
        "Mozilla")])]
    [("http://bugzilla.example/bugs/buglist.cgi?product=Core&component=XML+Parser",
        "Mozilla")]
    tBZ [hdrRow, rowBZ] [] [] rowBZ rfl rfl rfl rfl rfl (by decide)
    (by intro r2 hr2; cases hr2)

theorem dget_map_gitkey {gh : SheetResult} {R P : String} (h : dget gh R = some P) :
    dget (gh.map (fun pr => (pr.1 ++ ".git", pr.2))) (R ++ ".git") = some P := by
  induction gh with
  | nil => simp [dget] at h
  | cons pr rest ih =>
    obtain ⟨r0, p0⟩ := pr
    by_cases hr : r0 = R
    · subst hr
      have hP : p0 = P := by simpa [dget] using h
      subst hP
      simp [dget]
    · have hne : ¬ (r0 ++ ".git" = R ++ ".git") := fun hh => hr (strAppend_right_cancel hh)
      simp only [List.map_cons, dget, hne, if_false]
      exact ih (by simpa [dget, hr] using h)

/-- C4: every repo → project pair of the Github sheet result is filed in
the final tree under kind `github`, with the `.git`-suffixed key filed
under kind `git` for the same project; and the `git` dict of the
`spreadsheet` is exactly the image of the `github` dict under appending
`.git` to each key. -/
theorem C4_github_git_pair (wb : List (String × List Row)) (sp : Spreadsheet)
    (gh : SheetResult) (t : ProjectTree) (R P : String)
    (hps : processSheets wb [] = some sp)
    (hrun : runMain wb = some t)
    (hgh : dget sp "github" = some gh) :
    dget sp "git" = some (gh.map (fun pr => (pr.1 ++ ".git", pr.2)))
    ∧ (dget gh R = some P →
        R ∈ repoList t P "github" ∧ (R ++ ".git") ∈ repoList t P "git") := by
  have hinv : GitInv sp :=
    processSheets_gitInv wb [] sp (by intro gh2 h2; simp [dget] at h2) hps
  have hgit : dget sp "git" = some (gh.map (fun pr => (pr.1 ++ ".git", pr.2))) :=
    hinv gh hgh
  refine ⟨hgit, ?_⟩
  intro hRP
  rw [runMain, hps] at hrun
  have hrun2 : some (add_adhoc_repositories (finalize (aggregate sp []))) = some t := hrun
  have ht := (Option.some.inj hrun2).symm
  subst ht
  constructor
  · exact adhoc_repoList_preserve (by decide) (by decide) (by decide) (by decide) (by decide)
      (repoList_finalize (by decide) (aggregate_mem ([] : RawTree) (dget_mem hgh) hRP))
  · exact adhoc_repoList_preserve (by decide) (by decide) (by decide) (by decide) (by decide)
      (repoList_finalize (by decide)
        (aggregate_mem ([] : RawTree) (dget_mem hgit) (dget_map_gitkey hRP)))

/-- Witness for C4 at a one-row Github workbook. -/
theorem C4_github_git_pair_witness :
    dget [("github", [("https://github.com/a", "PP")]),
          ("git", [("https://github.com/a.git", "PP")])] "git"
      = some ([("https://github.com/a", "PP")].map (fun pr => (pr.1 ++ ".git", pr.2)))
    ∧ "https://github.com/a" ∈ repoList tGH "PP" "github"
    ∧ ("https://github.com/a" ++ ".git") ∈ repoList tGH "PP" "git" := by
  have h := C4_github_git_pair [("Github", [hdrRow, rowGH])]
    [("github", [("https://github.com/a", "PP")]),
     ("git", [("https://github.com/a.git", "PP")])]
    [("https://github.com/a", "PP")] tGH "https://github.com/a" "PP" rfl rfl rfl
  exact ⟨h.1, (h.2 rfl).1, (h.2 rfl).2⟩

/-- C6: the Discourse normalizer casts the cell to an integer and back
(cell `42` is stored as key `42`), and a Discourse repo cell that does not
parse as an integer aborts the whole run uncaught: `runMain` yields no
output tree at all. -/
theorem C6_discourse_normalize :
    DiscourseSheet_normalize_repo "42" = some "42"
    ∧ ∀ (wb : List (String × List Row)) (rows : List Row) (r : Row),
        ("Discourse", rows) ∈ wb → r ∈ rows.drop 1 → pyInt (r.cell 1) = none →
        runMain wb = none := by
  constructor
  · decide
  · intro wb rows r hmem hr hbad
    have hfail : discourseGetRepos rows = none := by
      rw [discourseGetRepos, get_repos]
      exact getReposAux_fail DiscourseSheet_normalize_repo (fun r2 => r2.cell 1) 2
        (rows.drop 1) [] r hr (by simp [DiscourseSheet_normalize_repo, hbad])
    rw [runMain, processSheets_fail wb rows [] hmem hfail]

/-- Witness for C6: a workbook whose Discourse sheet has category `abc`
aborts the run. -/
theorem C6_discourse_normalize_witness :
    runMain [("Discourse", [⟨fun _ => "h"⟩, rowBad])] = none :=
  C6_discourse_normalize.2 [("Discourse", [⟨fun _ => "h"⟩, rowBad])]
    [⟨fun _ => "h"⟩, rowBad] rowBad (List.mem_cons_self _ _)
    (List.mem_cons_self _ _) rfl

/-- C7: in the final tree every list value (the repo list of any project
and datasource kind; `meta` is a string, not a list) is sorted ascending
in code-point order and contains no duplicates. -/
theorem C7_sorted_nodup (wb : List (String × List Row)) (t : ProjectTree)
    (p k : String) (e : ProjectEntry) (l : List String)
    (hrun : runMain wb = some t) (hp : dget t p = some e)
    (hk : dget e k = some (PValue.vlist l)) :
    List.Pairwise (fun a b => strLe a b = true) l ∧ l.Nodup := by
  cases hps : processSheets wb [] with
  | none =>
    rw [runMain, hps] at hrun
    cases hrun
  | some sp =>
    rw [runMain, hps] at hrun
    have hrun2 : some (add_adhoc_repositories (finalize (aggregate sp []))) = some t := hrun
    have ht := (Option.some.inj hrun2).symm
    subst ht
    rcases adhoc_vlist_inv hp hk with ⟨e0, he0, hke0⟩ | h5
    · obtain ⟨rawE, hraw, hE⟩ := finalize_dget_inv he0
      rw [hE] at hke0
      obtain ⟨l0, hl0, hls⟩ := finalizeEntry_vlist_inv hke0
      have hnodup : l0.Nodup := by
        have hrn : RawNodup (aggregate sp []) := aggregate_rawNodup rawNodup_nil
        have h2 := hrn p k
        rw [rawRepoList_eq hraw hl0] at h2
        exact h2
      rw [hls]
      exact ⟨pysorted_pairwise l0, pysorted_nodup hnodup⟩
    · rcases h5 with h | h | h | h | h <;> rw [h] <;> exact ⟨by decide, by decide⟩

/-- Witness for C7: repos fed in order b, a, b come out as the sorted,
duplicate-free list [a, b]. -/
theorem C7_sorted_nodup_witness :
    List.Pairwise (fun a b => strLe a b = true) ["a", "b"] ∧ (["a", "b"] : List String).Nodup :=
  C7_sorted_nodup [("Meetup", [hdrRow, row7a, row7b, row7a])] t7 "PX" "meetup"
    [("meetup", PValue.vlist ["a", "b"]), ("meta", PValue.vstr "px")] ["a", "b"]
    rfl rfl rfl

/-- C8 (counterexample): `normalized_ghrepo` rewrites the first occurrence
of `https://` anywhere in the string, not only a leading one: on
`xhttps://Y` it produces `xhttp://y`, while the claimed leading-only
rewrite would leave `xhttps://y`. -/
theorem C8_counterexample :
    normalized_ghrepo "xhttps://Y" = "xhttp://y"
    ∧ ghrepoLeadingOnly "xhttps://Y" = "xhttps://y"
    ∧ normalized_ghrepo "xhttps://Y" ≠ ghrepoLeadingOnly "xhttps://Y" := by
  decide

/-- C8 (amended): `normalized_ghrepo` replaces the first occurrence of
`https://` anywhere in the string (before lowercasing) with `http://` and
then lowercases the whole string; when `https://` does not occur, it just
lowercases. The utility is not applied to stored keys: every key of the
Github sheet result is a raw column-0 cell value. -/
theorem C8_ghrepo_first_occurrence :
    (∀ (s : String) (i : Nat),
      isPre "https://".data (s.data.drop i) = true →
      (∀ j, j < i → isPre "https://".data (s.data.drop j) = false) →
      normalized_ghrepo s
        = pyLower (String.mk (s.data.take i ++ "http://".data
            ++ s.data.drop (i + "https://".data.length))))
    ∧ (∀ s : String,
        (∀ i, i ≤ s.data.length → isPre "https://".data (s.data.drop i) = false) →
        normalized_ghrepo s = pyLower s)
    ∧ (∀ (rows : List Row) (res : SheetResult) (R P : String),
        githubGetRepos rows = some res → dget res R = some P →
        R ∈ (rows.drop 1).map (fun r => r.cell 0)) := by
  have hpat : "https://".data ≠ [] := by decide
  refine ⟨?_, ?_, ?_⟩
  · intro s i hocc hfirst
    rw [normalized_ghrepo, pyReplace1]
    congr 2
    exact repFirst_occ_at "https://".data "http://".data hpat s.data i hocc hfirst
  · intro s hbdd
    have hall : ∀ i, isPre "https://".data (s.data.drop i) = false := by
      intro i
      by_cases hle : i ≤ s.data.length
      · exact hbdd i hle
      · rw [List.drop_eq_nil_of_le (by omega)]
        exact isPre_nil_false hpat
    rw [normalized_ghrepo, pyReplace1, repFirst_no_occ _ _ _ hall]
  · intro rows res R P hres hdg
    have hres2 : get_repos (fun s => some s) (fun r => r.cell 0) 1 rows = some res := by
      rw [githubGetRepos] at hres
      exact hres
    have hresT := @get_repos_total_inv (fun s => s) (fun r => r.cell 0) 1 rows res hres2
    rw [hresT] at hdg
    rcases getReposTAux_keys _ _ _ _ _ _ _ hdg with h2 | h2
    · simp [dget] at h2
    · simpa using h2

/-- Witness for the amended C8 claim: a non-leading occurrence, a string
with no occurrence, and a raw stored key. -/
theorem C8_ghrepo_first_occurrence_witness :
    normalized_ghrepo "Xhttps://GitHub.com"
      = pyLower (String.mk ("Xhttps://GitHub.com".data.take 1 ++ "http://".data
          ++ "Xhttps://GitHub.com".data.drop (1 + "https://".data.length)))
    ∧ normalized_ghrepo "GitHub.com" = pyLower "GitHub.com"
    ∧ "https://github.com/a" ∈ ([hdrRow, rowGH].drop 1).map (fun r => r.cell 0) :=
  ⟨C8_ghrepo_first_occurrence.1 "Xhttps://GitHub.com" 1 (by decide) (by decide),
   C8_ghrepo_first_occurrence.2.1 "GitHub.com" (by decide),
   C8_ghrepo_first_occurrence.2.2 [hdrRow, rowGH] [("https://github.com/a", "PP")]
     "https://github.com/a" "PP" rfl rfl⟩

/-- C10: the rendered JSON output (keys sorted, 4-space indentation) is a
deterministic function of the workbook contents: it does not depend on the
iteration order of the repo sets — rendering after finalization maps two
set-order realizations of the same aggregated tree to byte-identical
strings. -/
theorem C10_render_deterministic (t1 t2 : RawTree) (h : RawTreeEquiv t1 t2) :
    renderTree (add_adhoc_repositories (finalize t1))
      = renderTree (add_adhoc_repositories (finalize t2)) := by
  rw [finalize_congr h]

/-- Witness for C10: two permuted set realizations render identically. -/
theorem C10_render_deterministic_witness :
    renderTree (add_adhoc_repositories (finalize [("P", [("meetup", ["b", "a"])])]))
      = renderTree (add_adhoc_repositories (finalize [("P", [("meetup", ["a", "b"])])])) :=
  C10_render_deterministic [("P", [("meetup", ["b", "a"])])]
    [("P", [("meetup", ["a", "b"])])]
    (List.Forall₂.cons ⟨rfl, List.Forall₂.cons ⟨rfl, List.Perm.swap "a" "b" []⟩
      List.Forall₂.nil⟩ List.Forall₂.nil)
